import Mathlib

/-!
Verification development for the PhotonSR file-tree mutation engine
(`PerformReplacement`, `PerformRestore`, `PerformClean`, `matchesPattern`,
`createBackup` / `copyFile` from `main.go`).

The Go code is shallowly embedded:
* strings are `List Char`;
* the filesystem is a list of regular files (name, content, permission mode),
  one flat directory; `filepath.Walk` visits regular files in ascending
  name order, which we model by sorting the file list before a walk;
* `filepath.Match` is translated from Go's `path/filepath/match.go`
  (scanChunk / matchChunk / getEsc and the star-backtracking loop);
* I/O failures (backup, read, write, rename, remove) and traversal access
  errors are injected through an explicit failure oracle so that the
  error-accumulation policy of the engines can be stated and proved.
-/

namespace PhotonSR

/-- Go `strings.Contains s sub` (true when `sub` is empty). -/
def stringsContains (s sub : List Char) : Bool :=
  match s with
  | [] => sub.isEmpty
  | c :: tl => sub.isPrefixOf (c :: tl) || stringsContains tl sub

/-- Go `strings.HasSuffix s suffix-arg`. -/
def stringsHasSuffix (s suf : List Char) : Bool :=
  suf.isSuffixOf s

/-- Go `strings.TrimSuffix s suf`: drops `suf` when it is a suffix, else identity. -/
def stringsTrimSuffix (s suf : List Char) : List Char :=
  if stringsHasSuffix s suf then s.take (s.length - suf.length) else s

/-- Structural core of Go `strings.ReplaceAll`: `fuel` only bounds the
recursion depth (every step consumes at least one character of `s`, so
`s.length + 1` always suffices and the 0-fuel branch is unreachable from
the wrapper). -/
def replaceAllFuel : Nat → List Char → List Char → List Char → List Char
  | 0, _, _, _ => []
  | fuel + 1, s, old, new =>
    if old.isEmpty then
      match s with
      | [] => new
      | c :: cs => new ++ c :: replaceAllFuel fuel cs old new
    else
      match s with
      | [] => []
      | c :: cs =>
        if old.isPrefixOf (c :: cs) then
          new ++ replaceAllFuel fuel ((c :: cs).drop old.length) old new
        else
          c :: replaceAllFuel fuel cs old new

/-- Go `strings.ReplaceAll s old new`: leftmost, non-overlapping global
replacement.  When `old` is empty it matches before every rune and at the
end, as in Go's `strings.Replace` with `n < 0`. -/
def stringsReplaceAll (s old new : List Char) : List Char :=
  replaceAllFuel (s.length + 1) s old new

/-! ### `filepath.Match` (Go standard library `path/filepath/match.go`) -/

/-- The single error of Go's matcher: `filepath.ErrBadPattern`. -/
inductive MErr where
  | badPattern
deriving Repr, DecidableEq

deriving instance DecidableEq for Except

/-- Leading-star stripping of Go `scanChunk`: consumes every leading `*`,
reporting whether at least one was present. -/
def stripStars : List Char → Bool × List Char
  | [] => (false, [])
  | c :: rest =>
    if c = '*' then (true, (stripStars rest).2) else (false, c :: rest)

/-- The `Scan` loop of Go `scanChunk`: cuts the next non-star chunk,
tracking bracket nesting (`inrange`) and backslash escapes. -/
def chunkScan (p : List Char) (inr : Bool) : List Char × List Char :=
  match p with
  | [] => ([], [])
  | c :: rest =>
    if c = '\\' then
      match rest with
      | [] => ([c], [])
      | d :: rest2 =>
        let r := chunkScan rest2 inr
        (c :: d :: r.1, r.2)
    else if c = '[' then
      let r := chunkScan rest true
      (c :: r.1, r.2)
    else if c = ']' then
      let r := chunkScan rest false
      (c :: r.1, r.2)
    else if c = '*' ∧ inr = false then
      ([], c :: rest)
    else
      let r := chunkScan rest inr
      (c :: r.1, r.2)

/-- Go `scanChunk pattern = (star, chunk, rest)`. -/
def scanChunk (p : List Char) : Bool × List Char × List Char :=
  let s := stripStars p
  let r := chunkScan s.2 false
  (s.1, r.1, r.2)

/-- Go `getEsc`: reads one possibly-escaped character of a bracket class;
errors when the class cannot still be terminated. -/
def getEsc (chunk : List Char) : Except MErr (Char × List Char) :=
  match chunk with
  | [] => .error .badPattern
  | c :: rest =>
    if c = '-' ∨ c = ']' then .error .badPattern
    else if c = '\\' then
      match rest with
      | [] => .error .badPattern
      | d :: rest2 => if rest2 = [] then .error .badPattern else .ok (d, rest2)
    else if rest = [] then .error .badPattern
    else .ok (c, rest)

/-- Structural core of the range-parsing loop inside the `[` case of Go
`matchChunk`: consumes `lo`(-`hi`) pairs until the closing `]`,
accumulating whether the candidate rune `r` fell inside some range.
`fuel` only bounds the recursion depth (every step consumes at least one
character of `chunk`, so `chunk.length + 1` always suffices). -/
def rangeLoopFuel : Nat → List Char → Nat → Bool → Char → Except MErr (List Char × Bool)
  | 0, _, _, _, _ => .error .badPattern
  | fuel + 1, chunk, nrange, matched, r =>
    if chunk.head? = some ']' ∧ 0 < nrange then
      .ok (chunk.tail, matched)
    else
      match getEsc chunk with
      | .error e => .error e
      | .ok (lo, ch2) =>
        if ch2.head? = some '-' then
          match getEsc ch2.tail with
          | .error e => .error e
          | .ok (hi, ch3) =>
            rangeLoopFuel fuel ch3 (nrange + 1)
              (matched || (decide (lo ≤ r) && decide (r ≤ hi))) r
        else
          rangeLoopFuel fuel ch2 (nrange + 1)
            (matched || (decide (lo ≤ r) && decide (r ≤ lo))) r

/-- The range-parsing loop of the `[` case, at adequate fuel. -/
def rangeLoop (chunk : List Char) (nrange : Nat) (matched : Bool) (r : Char) :
    Except MErr (List Char × Bool) :=
  rangeLoopFuel (chunk.length + 1) chunk nrange matched r

/-- Negation marker parsing of the `[` case of Go `matchChunk`. -/
def classNeg (ch : List Char) : Bool × List Char :=
  match ch with
  | '^' :: chtail => (true, chtail)
  | _ => (false, ch)

/-- Rune extraction of the `[` case of Go `matchChunk`: when the match has
not failed, decode one rune of `s` and advance; otherwise leave `s` alone
(Go keeps `r` at its zero value in that case). -/
def headRune (s : List Char) (failed : Bool) : Char × List Char :=
  match s, failed with
  | x :: xs, false => (x, xs)
  | _, _ => (Char.ofNat 0, s)

/-- Structural core of Go `matchChunk`, with its `failed` flag made
explicit: checks whether `chunk` matches a prefix of `s`, returning the
rest of `s` and the match verdict, and validating chunk syntax even after
a mismatch.  `fuel` only bounds the recursion depth (every step consumes
at least one character of `chunk`, so `chunk.length + 1` suffices). -/
def matchChunkFuel : Nat → List Char → List Char → Bool → Except MErr (List Char × Bool)
  | 0, _, _, _ => .error .badPattern
  | fuel + 1, chunk, s, failed =>
    match chunk with
    | [] => if failed then .ok ([], false) else .ok (s, true)
    | c :: ch =>
      let failed1 := failed || s.isEmpty
      if c = '[' then
        match rangeLoop (classNeg ch).2 0 false (headRune s failed1).1 with
        | .error e => .error e
        | .ok (ch2, matched) =>
          matchChunkFuel fuel ch2 (headRune s failed1).2 (failed1 || (matched == (classNeg ch).1))
      else if c = '?' then
        match s, failed1 with
        | x :: xs, false => matchChunkFuel fuel ch xs (x == '/')
        | _, _ => matchChunkFuel fuel ch s failed1
      else if c = '\\' then
        match ch with
        | [] => .error .badPattern
        | d :: ch2 =>
          match s, failed1 with
          | x :: xs, false => matchChunkFuel fuel ch2 xs (!(d == x))
          | _, _ => matchChunkFuel fuel ch2 s failed1
      else
        match s, failed1 with
        | x :: xs, false => matchChunkFuel fuel ch xs (!(c == x))
        | _, _ => matchChunkFuel fuel ch s failed1

/-- Go `matchChunk chunk s`, at adequate fuel. -/
def matchChunk (chunk s : List Char) (failed : Bool) :
    Except MErr (List Char × Bool) :=
  matchChunkFuel (chunk.length + 1) chunk s failed

/-- The star-backtracking loop of Go `Match`: try the chunk at every later
byte position of `name`, never skipping past a path separator.  Returns the
rest of the name on the first acceptable position (`rest` is the remaining
pattern, used for the last-chunk exhaustion check). -/
def starLoop (chunk rest : List Char) : List Char → Except MErr (Option (List Char))
  | [] => .ok none
  | c :: tl =>
    if c = '/' then .ok none
    else
      match matchChunk chunk tl false with
      | .error e => .error e
      | .ok (t, true) =>
        if rest.isEmpty && !t.isEmpty then starLoop chunk rest tl else .ok (some t)
      | .ok (_, false) => starLoop chunk rest tl

/-- Structural core of the final syntactic-validity sweep of Go `Match`:
after a definitive mismatch, the rest of the pattern is still checked
chunk by chunk.  `fuel` only bounds the recursion depth (every step
consumes at least one character of the pattern, so `p.length + 1`
suffices). -/
def patTailCheckFuel : Nat → List Char → Except MErr Unit
  | 0, _ => .error .badPattern
  | fuel + 1, p =>
    match p with
    | [] => .ok ()
    | _ :: _ =>
      match matchChunk (scanChunk p).2.1 [] false with
      | .error e => .error e
      | .ok _ => patTailCheckFuel fuel (scanChunk p).2.2

/-- The syntactic-validity sweep, at adequate fuel. -/
def patTailCheck (p : List Char) : Except MErr Unit :=
  patTailCheckFuel (p.length + 1) p

/-- Structural core of Go `filepath.Match` (the `Pattern` loop of
`path/filepath/match.go`).  `fuel` only bounds the recursion depth (every
loop iteration consumes at least one character of the pattern, so
`p.length + 1` suffices). -/
def goMatchFuel : Nat → List Char → List Char → Except MErr Bool
  | 0, _, _ => .error .badPattern
  | fuel + 1, p, name =>
    match p with
    | [] => .ok name.isEmpty
    | _ :: _ =>
      let star := (scanChunk p).1
      let chunk := (scanChunk p).2.1
      let rest := (scanChunk p).2.2
      if star && chunk.isEmpty then
        .ok (!name.contains '/')
      else
        match matchChunk chunk name false with
        | .error e => .error e
        | .ok (t, okb) =>
          if okb && (t.isEmpty || !rest.isEmpty) then
            goMatchFuel fuel rest t
          else if star then
            match starLoop chunk rest name with
            | .error e => .error e
            | .ok (some t2) => goMatchFuel fuel rest t2
            | .ok none =>
              match patTailCheck rest with
              | .error e => .error e
              | .ok _ => .ok false
          else
            match patTailCheck rest with
            | .error e => .error e
            | .ok _ => .ok false

/-- Go `filepath.Match pattern name`, at adequate fuel. -/
def goMatch (pattern name : List Char) : Except MErr Bool :=
  goMatchFuel (pattern.length + 1) pattern name

/-- `matchesPattern` from `main.go`: empty pattern and `"*"` match
everything; anything else is delegated to `filepath.Match`. -/
def matchesPattern (filename pattern : List Char) : Except MErr Bool :=
  if pattern.isEmpty || pattern == ['*'] then .ok true
  else goMatch pattern filename

/-! ### Filesystem model

One flat directory of regular files.  `filepath.Walk` reads the directory
listing once, sorts the names, and visits each entry; we model a walk as a
traversal of the name-sorted file list that existed when the walk started
(files created during a walk are not visited, matching Go, where the
listing snapshot is taken before the callbacks run). -/

/-- A regular file: base name (= path inside the single directory),
content bytes, and permission bits (`os.FileMode`). -/
structure FsFile where
  name : List Char
  content : List Char
  mode : Nat
deriving Repr, DecidableEq

abbrev Fs := List FsFile

/-- Names present in a directory state. -/
def fsNames (fs : Fs) : List (List Char) := fs.map FsFile.name

/-- Lookup by name (names are unique in every well-formed state). -/
def fsLookup (fs : Fs) (n : List Char) : Option FsFile :=
  fs.find? (fun f => f.name == n)

/-- Remove every entry named `n`. -/
def fsErase (fs : Fs) (n : List Char) : Fs :=
  fs.filter (fun f => !(f.name == n))

/-- `os.WriteFile n content mode`: truncate-and-write.  When the file
already exists its permission bits are kept (the `perm` argument of
`os.WriteFile` only applies on creation); otherwise a new file is created
with the given mode. -/
def fsWriteFile (fs : Fs) (n content : List Char) (mode : Nat) : Fs :=
  match fsLookup fs n with
  | some _ => fs.map (fun f => if f.name == n then { f with content := content } else f)
  | none => fs ++ [⟨n, content, mode⟩]

/-- `os.Rename src dst`: fails when `src` is absent, otherwise atomically
replaces `dst` with the file previously named `src` (content and mode
travel with the file). -/
def fsRename (fs : Fs) (src dst : List Char) : Option Fs :=
  match fsLookup fs src with
  | none => none
  | some f => some (fsErase (fsErase fs src) dst ++ [⟨dst, f.content, f.mode⟩])

/-- `os.Remove n`: fails when `n` is absent. -/
def fsRemove (fs : Fs) (n : List Char) : Option Fs :=
  match fsLookup fs n with
  | none => none
  | some _ => some (fsErase fs n)

/-- Byte-wise (here: character-wise) string order used by Go to sort
directory entries. -/
def nameLt (a b : List Char) : Bool :=
  match a, b with
  | [], [] => false
  | [], _ :: _ => true
  | _ :: _, [] => false
  | c :: as, d :: bs => if c = d then nameLt as bs else decide (c < d)

/-- Non-strict name order, the sorting relation of a directory listing. -/
def fsLe (f g : FsFile) : Prop := nameLt g.name f.name = false

instance : DecidableRel fsLe := fun f g => by
  unfold fsLe
  infer_instance

/-- The directory listing in walk order (Go sorts entry names). -/
def sortFs (fs : Fs) : Fs := List.insertionSort fsLe fs

/-- One event seen by the `filepath.Walk` callback: either a path that
could not be accessed (`errInWalk ≠ nil`) or a regular file, identified by
its name (the callback re-reads content and mode from the current disk
state). -/
inductive WalkEvent where
  | access : List Char → WalkEvent
  | file : List Char → WalkEvent
deriving Repr, DecidableEq

/-- The event stream of a clean walk over directory state `fs`. -/
def walkOf (fs : Fs) : List WalkEvent :=
  (sortFs fs).map (fun f => .file f.name)

/-- Injected I/O failures, per path, for stating the error-accumulation
policy: each component names the operation of the engines that can fail. -/
structure FailSpec where
  backupFails : List Char → Bool
  readFails : List Char → Bool
  writeFails : List Char → Bool
  renameFails : List Char → Bool
  removeFails : List Char → Bool

/-- The failure-free oracle. -/
def noFail : FailSpec :=
  ⟨fun _ => false, fun _ => false, fun _ => false, fun _ => false, fun _ => false⟩

/-- The errors surfaced by the engines (`fmt.Errorf` wrappings collapsed
to their kind plus offending path). -/
inductive EngineErr where
  | invalidRequest
  | invalidPattern
  | accessError (path : List Char)
  | backupError (path : List Char)
  | readError (path : List Char)
  | writeError (path : List Char)
  | renameError (path : List Char)
  | removeError (path : List Char)
deriving Repr, DecidableEq

/-- `if firstEncounteredError == nil { firstEncounteredError = e }`. -/
def noteErr (o : Option EngineErr) (e : EngineErr) : Option EngineErr :=
  match o with
  | none => some e
  | some e0 => some e0

/-- The `.bak` suffix. -/
def bakSuffix : List Char := ['.', 'b', 'a', 'k']

/-! ### `PerformReplacement` -/

/-- `ReplaceOptions` (the directory is the walked state itself). -/
structure ReplaceOptions where
  pattern : List Char
  oldText : List Char
  newText : List Char
  shouldBackup : Bool

/-- `createBackup`/`copyFile` from `main.go`: read `srcPath`, stat its
mode, and write content + mode to `srcPath + ".bak"`.  `none` on failure
(missing source or injected failure). -/
def createBackup (fail : FailSpec) (fs : Fs) (srcPath : List Char) : Option Fs :=
  if fail.backupFails srcPath then none
  else
    match fsLookup fs srcPath with
    | none => none
    | some f => some (fsWriteFile fs (srcPath ++ bakSuffix) f.content f.mode)

/-- The accumulator of one `PerformReplacement` walk: Go's
`modifiedFiles`, `filesProcessed`, `firstEncounteredError`, plus the
evolving disk state. -/
structure RepAcc where
  modifiedFiles : List (List Char)
  filesProcessed : Nat
  firstErr : Option EngineErr
  fs : Fs
deriving Repr, DecidableEq

/-- The backup paragraph of the `PerformReplacement` callback: when
`ShouldBackup` is set, attempt `createBackup`; on failure record the first
non-fatal error and continue with this file anyway. -/
def backupPhase (opts : ReplaceOptions) (fail : FailSpec) (acc1 : RepAcc)
    (name : List Char) : RepAcc :=
  if opts.shouldBackup then
    match createBackup fail acc1.fs name with
    | none => { acc1 with firstErr := noteErr acc1.firstErr (.backupError name) }
    | some fs2 => { acc1 with fs := fs2 }
  else acc1

/-- The read/replace/write paragraphs of the `PerformReplacement`
callback: read the file (skip on failure, recording the error); when the
content contains `OldText`, write back the global replacement with the
file's mode (skip on write failure, recording the error) and append the
path to the modified list. -/
def rwPhase (opts : ReplaceOptions) (fail : FailSpec) (acc2 : RepAcc)
    (name : List Char) : RepAcc :=
  match (if fail.readFails name then none else fsLookup acc2.fs name) with
  | none => { acc2 with firstErr := noteErr acc2.firstErr (.readError name) }
  | some f =>
    if stringsContains f.content opts.oldText then
      if fail.writeFails name then
        { acc2 with firstErr := noteErr acc2.firstErr (.writeError name) }
      else
        { acc2 with
            fs := fsWriteFile acc2.fs name
              (stringsReplaceAll f.content opts.oldText opts.newText) f.mode,
            modifiedFiles := acc2.modifiedFiles ++ [name] }
    else acc2

/-- The body of the `filepath.Walk` callback in `PerformReplacement`.
`Except`-error = a fatal error returned from the callback (invalid
pattern), which aborts the walk. -/
def replaceStep (opts : ReplaceOptions) (fail : FailSpec) (acc : RepAcc) :
    WalkEvent → Except EngineErr RepAcc
  | .access p => .ok { acc with firstErr := noteErr acc.firstErr (.accessError p) }
  | .file name =>
    match matchesPattern name opts.pattern with
    | .error _ => .error .invalidPattern
    | .ok false => .ok acc
    | .ok true =>
      .ok (rwPhase opts fail
        (backupPhase opts fail { acc with filesProcessed := acc.filesProcessed + 1 } name)
        name)

/-- `filepath.Walk` for the replacement callback: processes the events in
order, aborting on a fatal callback error (returned as the second
component, Go's `walkErr`). -/
def replaceWalk (opts : ReplaceOptions) (fail : FailSpec) (acc : RepAcc) :
    List WalkEvent → RepAcc × Option EngineErr
  | [] => (acc, none)
  | e :: rest =>
    match replaceStep opts fail acc e with
    | .error err => (acc, some err)
    | .ok acc2 => replaceWalk opts fail acc2 rest

/-- The full result of `PerformReplacement`: modified paths, processed
count, the returned error, and the final disk state. -/
structure RepResult where
  modifiedFiles : List (List Char)
  filesProcessed : Nat
  err : Option EngineErr
  fs : Fs
deriving Repr, DecidableEq

/-- Packaging of a finished walk (Go's two `return` statements at the end
of `PerformReplacement`): a fatal walk error wins over the accumulated
first non-fatal error. -/
def repFinish (r : RepAcc × Option EngineErr) : RepResult :=
  match r.2 with
  | some e => ⟨r.1.modifiedFiles, r.1.filesProcessed, some e, r.1.fs⟩
  | none => ⟨r.1.modifiedFiles, r.1.filesProcessed, r.1.firstErr, r.1.fs⟩

/-- `PerformReplacement` from `main.go`. -/
def performReplacement (opts : ReplaceOptions) (fail : FailSpec) (fs : Fs) : RepResult :=
  if opts.oldText.isEmpty then ⟨[], 0, some .invalidRequest, fs⟩
  else repFinish (replaceWalk opts fail ⟨[], 0, none, fs⟩ (walkOf fs))

/-! ### `PerformRestore` and `PerformClean` -/

/-- `strings.HasSuffix(name, ".bak")`. -/
def endsWithBak (n : List Char) : Bool := stringsHasSuffix n bakSuffix

/-- `strings.TrimSuffix(path, ".bak")`. -/
def trimBak (p : List Char) : List Char := stringsTrimSuffix p bakSuffix

/-- The accumulator of one restore/clean walk: the acted-on paths (the
data content of Go's `messages`), the success counter, the first
non-fatal error, and the evolving disk state. -/
structure RrAcc where
  actedPaths : List (List Char)
  count : Nat
  firstErr : Option EngineErr
  fs : Fs
deriving Repr, DecidableEq

/-- The body of the `filepath.Walk` callback in `PerformRestore`:
non-`.bak` files are skipped; a `.bak` file is renamed onto the name with
the suffix stripped.  No fatal outcomes exist. -/
def restoreStep (fail : FailSpec) (acc : RrAcc) : WalkEvent → RrAcc
  | .access p => { acc with firstErr := noteErr acc.firstErr (.accessError p) }
  | .file name =>
    if !endsWithBak name then acc
    else
      let originalPath := trimBak name
      match (if fail.renameFails name then none else fsRename acc.fs name originalPath) with
      | none => { acc with firstErr := noteErr acc.firstErr (.renameError name) }
      | some fs2 =>
        { acc with fs := fs2, actedPaths := acc.actedPaths ++ [originalPath],
                   count := acc.count + 1 }

/-- The walk of `PerformRestore`. -/
def restoreWalk (fail : FailSpec) (acc : RrAcc) : List WalkEvent → RrAcc
  | [] => acc
  | e :: rest => restoreWalk fail (restoreStep fail acc e) rest

/-- `PerformRestore` from `main.go` (returned data: messages ≈ acted
paths, `filesRestored`, first non-fatal error, final disk state). -/
def performRestore (fail : FailSpec) (fs : Fs) : RrAcc :=
  restoreWalk fail ⟨[], 0, none, fs⟩ (walkOf fs)

/-- The body of the `filepath.Walk` callback in `PerformClean`: deletes
each `.bak` file. -/
def cleanStep (fail : FailSpec) (acc : RrAcc) : WalkEvent → RrAcc
  | .access p => { acc with firstErr := noteErr acc.firstErr (.accessError p) }
  | .file name =>
    if !endsWithBak name then acc
    else
      match (if fail.removeFails name then none else fsRemove acc.fs name) with
      | none => { acc with firstErr := noteErr acc.firstErr (.removeError name) }
      | some fs2 =>
        { acc with fs := fs2, actedPaths := acc.actedPaths ++ [name],
                   count := acc.count + 1 }

/-- The walk of `PerformClean`. -/
def cleanWalk (fail : FailSpec) (acc : RrAcc) : List WalkEvent → RrAcc
  | [] => acc
  | e :: rest => cleanWalk fail (cleanStep fail acc e) rest

/-- `PerformClean` from `main.go`. -/
def performClean (fail : FailSpec) (fs : Fs) : RrAcc :=
  cleanWalk fail ⟨[], 0, none, fs⟩ (walkOf fs)

/-! ### Shape lemmas for the replacement walk -/

/-- The matcher returned without error. -/
def exceptIsOk : Except MErr Bool → Bool
  | .ok _ => true
  | .error _ => false

/-- The file name is selected by the request pattern. -/
def isMatched (opts : ReplaceOptions) (n : List Char) : Bool :=
  matchesPattern n opts.pattern == Except.ok true

/-- The event is a file selected by the request pattern. -/
def isFileMatch (opts : ReplaceOptions) : WalkEvent → Bool
  | .file n => isMatched opts n
  | .access _ => false

/-- The path carried by a walk event. -/
def eventName : WalkEvent → List Char
  | .access p => p
  | .file n => n

/-- The paths of a walk, in traversal order. -/
def eventNames (evs : List WalkEvent) : List (List Char) := evs.map eventName

/-- Names are unique in a well-formed directory state. -/
def fsUnique (fs : Fs) : Prop := (fsNames fs).Nodup

instance (fs : Fs) : Decidable (fsUnique fs) := by
  unfold fsUnique
  infer_instance

/-- No file of the directory is the backup path of a file selected by the
pattern: the hygiene condition under which a backup-enabled replacement
run cannot clobber a file that is itself visited. -/
def noBakCollision (opts : ReplaceOptions) (fs : Fs) : Prop :=
  ∀ f ∈ fs, ∀ g ∈ fs, isMatched opts g.name = true → f.name ≠ g.name ++ bakSuffix

instance (opts : ReplaceOptions) (fs : Fs) : Decidable (noBakCollision opts fs) := by
  unfold noBakCollision
  infer_instance

/-! ### Spec-level error logs

To state the first-one-wins error-accumulation policy we replay a walk
and collect *every* non-fatal error in traversal order; the engines above
keep only `firstErr`, and the policy is the theorem connecting the two. -/

/-- Non-fatal errors emitted by the backup paragraph of one matched-file
visit of `PerformReplacement`. -/
def backupErrs (opts : ReplaceOptions) (fail : FailSpec) (fs : Fs)
    (name : List Char) : List EngineErr :=
  if opts.shouldBackup then
    match createBackup fail fs name with
    | none => [.backupError name]
    | some _ => []
  else []

/-- The disk state after the backup paragraph of one matched-file visit. -/
def backupFsAfter (opts : ReplaceOptions) (fail : FailSpec) (fs : Fs)
    (name : List Char) : Fs :=
  if opts.shouldBackup then
    match createBackup fail fs name with
    | none => fs
    | some fs2 => fs2
  else fs

/-- Non-fatal errors emitted by the read/replace/write paragraphs of one
matched-file visit of `PerformReplacement`. -/
def rwErrs (opts : ReplaceOptions) (fail : FailSpec) (fs : Fs)
    (name : List Char) : List EngineErr :=
  match (if fail.readFails name then none else fsLookup fs name) with
  | none => [.readError name]
  | some f =>
    if stringsContains f.content opts.oldText then
      if fail.writeFails name then [.writeError name] else []
    else []

/-- The disk state after the read/replace/write paragraphs. -/
def rwFsAfter (opts : ReplaceOptions) (fail : FailSpec) (fs : Fs)
    (name : List Char) : Fs :=
  match (if fail.readFails name then none else fsLookup fs name) with
  | none => fs
  | some f =>
    if stringsContains f.content opts.oldText then
      if fail.writeFails name then fs
      else fsWriteFile fs name (stringsReplaceAll f.content opts.oldText opts.newText) f.mode
    else fs

/-- All non-fatal errors one `PerformReplacement` walk event emits, in
order. -/
def replaceStepErrs (opts : ReplaceOptions) (fail : FailSpec) (fs : Fs) :
    WalkEvent → List EngineErr
  | .access p => [.accessError p]
  | .file name =>
    match matchesPattern name opts.pattern with
    | .error _ => []
    | .ok false => []
    | .ok true =>
      backupErrs opts fail fs name ++ rwErrs opts fail (backupFsAfter opts fail fs name) name

/-- The disk state after one `PerformReplacement` walk event. -/
def replaceStepFs (opts : ReplaceOptions) (fail : FailSpec) (fs : Fs) :
    WalkEvent → Fs
  | .access _ => fs
  | .file name =>
    match matchesPattern name opts.pattern with
    | .error _ => fs
    | .ok false => fs
    | .ok true => rwFsAfter opts fail (backupFsAfter opts fail fs name) name

/-- All non-fatal errors of a `PerformReplacement` walk, in traversal
order. -/
def replaceErrLog (opts : ReplaceOptions) (fail : FailSpec) (fs : Fs) :
    List WalkEvent → List EngineErr
  | [] => []
  | e :: rest =>
    replaceStepErrs opts fail fs e
      ++ replaceErrLog opts fail (replaceStepFs opts fail fs e) rest

/-- All non-fatal errors one `PerformRestore` walk event emits. -/
def restoreStepErrs (fail : FailSpec) (fs : Fs) : WalkEvent → List EngineErr
  | .access p => [.accessError p]
  | .file name =>
    if !endsWithBak name then []
    else
      match (if fail.renameFails name then none else fsRename fs name (trimBak name)) with
      | none => [.renameError name]
      | some _ => []

/-- The disk state after one `PerformRestore` walk event. -/
def restoreStepFs (fail : FailSpec) (fs : Fs) : WalkEvent → Fs
  | .access _ => fs
  | .file name =>
    if !endsWithBak name then fs
    else
      match (if fail.renameFails name then none else fsRename fs name (trimBak name)) with
      | none => fs
      | some fs2 => fs2

/-- All non-fatal errors of a `PerformRestore` walk, in traversal order. -/
def restoreErrLog (fail : FailSpec) (fs : Fs) : List WalkEvent → List EngineErr
  | [] => []
  | e :: rest =>
    restoreStepErrs fail fs e ++ restoreErrLog fail (restoreStepFs fail fs e) rest

/-- All non-fatal errors one `PerformClean` walk event emits. -/
def cleanStepErrs (fail : FailSpec) (fs : Fs) : WalkEvent → List EngineErr
  | .access p => [.accessError p]
  | .file name =>
    if !endsWithBak name then []
    else
      match (if fail.removeFails name then none else fsRemove fs name) with
      | none => [.removeError name]
      | some _ => []

/-- The disk state after one `PerformClean` walk event. -/
def cleanStepFs (fail : FailSpec) (fs : Fs) : WalkEvent → Fs
  | .access _ => fs
  | .file name =>
    if !endsWithBak name then fs
    else
      match (if fail.removeFails name then none else fsRemove fs name) with
      | none => fs
      | some fs2 => fs2

/-- All non-fatal errors of a `PerformClean` walk, in traversal order. -/
def cleanErrLog (fail : FailSpec) (fs : Fs) : List WalkEvent → List EngineErr
  | [] => []
  | e :: rest =>
    cleanStepErrs fail fs e ++ cleanErrLog fail (cleanStepFs fail fs e) rest

/-! ### Matcher length lemmas -/

theorem chunkScan_length (p : List Char) (inr : Bool) :
    (chunkScan p inr).2.length ≤ p.length := by
  induction p, inr using chunkScan.induct with
  | case1 inr => simp [chunkScan]
  | case2 inr => simp [chunkScan]
  | case3 inr c tl ih =>
    unfold chunkScan
    simp
    omega
  | case4 inr tl h1 ih =>
    unfold chunkScan
    rw [if_neg (by intro h; exact h1 h), if_pos rfl]
    simp only [List.length_cons]
    omega
  | case5 inr tl h1 h2 ih =>
    unfold chunkScan
    rw [if_neg (by intro h; exact h1 h), if_neg (by intro h; exact h2 h), if_pos rfl]
    simp only [List.length_cons]
    omega
  | case6 inr c tl h1 h2 h3 h4 =>
    unfold chunkScan
    rw [if_neg h1, if_neg h2, if_neg h3, if_pos h4]
  | case7 inr c tl h1 h2 h3 h4 ih =>
    unfold chunkScan
    rw [if_neg h1, if_neg h2, if_neg h3, if_neg h4]
    simp only [List.length_cons]
    omega

theorem stripStars_le (p : List Char) : (stripStars p).2.length ≤ p.length := by
  induction p with
  | nil => simp [stripStars]
  | cons c rest ih =>
    unfold stripStars
    by_cases hc : c = '*'
    · rw [if_pos hc]
      simp only [List.length_cons]
      omega
    · rw [if_neg hc]

theorem stripStars_lt (p : List Char) (h : (stripStars p).1 = true) :
    (stripStars p).2.length < p.length := by
  induction p with
  | nil => simp [stripStars] at h
  | cons c rest ih =>
    unfold stripStars
    by_cases hc : c = '*'
    · rw [if_pos hc]
      have := stripStars_le rest
      simp only [List.length_cons]
      omega
    · exfalso
      unfold stripStars at h
      rw [if_neg hc] at h
      simp at h

theorem stripStars_head {p : List Char} {c : Char} {rest : List Char}
    (h : (stripStars p).2 = c :: rest) : c ≠ '*' := by
  induction p with
  | nil => simp [stripStars] at h
  | cons a as ih =>
    unfold stripStars at h
    by_cases ha : a = '*'
    · rw [if_pos ha] at h
      exact ih h
    · rw [if_neg ha] at h
      simp only at h
      injection h with h1 h2
      subst h1
      exact ha

theorem chunkScan_cons_length (c : Char) (rest : List Char) (inr : Bool)
    (hc : c ≠ '*' ∨ inr = true) :
    (chunkScan (c :: rest) inr).2.length ≤ rest.length := by
  unfold chunkScan
  by_cases h1 : c = '\\'
  · rw [if_pos h1]
    cases rest with
    | nil => simp
    | cons d rest2 =>
      have := chunkScan_length rest2 inr
      simp
      omega
  · rw [if_neg h1]
    by_cases h2 : c = '['
    · rw [if_pos h2]
      exact chunkScan_length rest true
    · rw [if_neg h2]
      by_cases h3 : c = ']'
      · rw [if_pos h3]
        exact chunkScan_length rest false
      · rw [if_neg h3]
        by_cases h4 : c = '*' ∧ inr = false
        · exfalso
          rcases hc with hc | hc
          · exact hc h4.1
          · rw [h4.2] at hc
            exact Bool.false_ne_true hc
        · rw [if_neg h4]
          exact chunkScan_length rest inr

theorem scanChunk_length (p : List Char) (hp : p ≠ []) :
    (scanChunk p).2.2.length < p.length := by
  unfold scanChunk
  simp only
  rcases hs : (stripStars p).2 with _ | ⟨c, rest⟩
  · have h0 : (chunkScan [] false).2.length = 0 := by simp [chunkScan]
    rw [h0]
    cases p with
    | nil => exact absurd rfl hp
    | cons a as => simp
  · have hc : c ≠ '*' := stripStars_head hs
    have h1 := chunkScan_cons_length c rest false (Or.inl hc)
    have hle := stripStars_le p
    rw [hs] at hle
    simp only [List.length_cons] at hle
    omega


/-! ### Order lemmas for directory-entry names -/

theorem nameLt_irrefl (a : List Char) : nameLt a a = false := by
  induction a with
  | nil => rfl
  | cons c as ih => simp [nameLt, ih]

theorem nameLt_asymm {a b : List Char} (h : nameLt a b = true) :
    nameLt b a = false := by
  induction a generalizing b with
  | nil =>
    cases b with
    | nil => simp [nameLt] at h
    | cons d bs => rfl
  | cons c as ih =>
    cases b with
    | nil => simp [nameLt] at h
    | cons d bs =>
      unfold nameLt at h ⊢
      by_cases hcd : c = d
      · subst hcd
        rw [if_pos rfl] at h ⊢
        exact ih h
      · rw [if_neg hcd] at h
        rw [if_neg (fun hh => hcd hh.symm)]
        simp only [decide_eq_true_eq] at h
        simp only [decide_eq_false_iff_not]
        intro hdc
        exact hcd (le_antisymm (le_of_lt h) (le_of_lt hdc)) |>.elim

theorem nameLt_trans {a b c : List Char} (h1 : nameLt a b = true)
    (h2 : nameLt b c = true) : nameLt a c = true := by
  induction a generalizing b c with
  | nil =>
    cases c with
    | nil =>
      cases b with
      | nil => simp [nameLt] at h1
      | cons d bs => simp [nameLt] at h2
    | cons e cs => rfl
  | cons x as ih =>
    cases b with
    | nil => simp [nameLt] at h1
    | cons y bs =>
      cases c with
      | nil => simp [nameLt] at h2
      | cons z cs =>
        unfold nameLt at h1 h2 ⊢
        by_cases hxy : x = y
        · subst hxy
          rw [if_pos rfl] at h1
          by_cases hyz : x = z
          · subst hyz
            rw [if_pos rfl] at h2 ⊢
            exact ih h1 h2
          · rw [if_neg hyz] at h2
            rw [if_neg hyz]
            exact h2
        · rw [if_neg hxy] at h1
          by_cases hyz : y = z
          · subst hyz
            rw [if_neg hxy]
            exact h1
          · rw [if_neg hyz] at h2
            by_cases hxz : x = z
            · subst hxz
              simp only [decide_eq_true_eq] at h1 h2
              exact absurd (lt_trans h1 h2) (lt_irrefl x)
            · rw [if_neg hxz]
              simp only [decide_eq_true_eq] at h1 h2 ⊢
              exact lt_trans h1 h2

theorem nameLt_conn {a b : List Char} (h1 : nameLt a b = false)
    (h2 : nameLt b a = false) : a = b := by
  induction a generalizing b with
  | nil =>
    cases b with
    | nil => rfl
    | cons d bs => simp [nameLt] at h1
  | cons c as ih =>
    cases b with
    | nil => simp [nameLt] at h2
    | cons d bs =>
      unfold nameLt at h1 h2
      by_cases hcd : c = d
      · subst hcd
        rw [if_pos rfl] at h1 h2
        rw [ih h1 h2]
      · rw [if_neg hcd] at h1
        rw [if_neg (fun hh => hcd hh.symm)] at h2
        simp only [decide_eq_false_iff_not] at h1 h2
        exact absurd (le_antisymm (not_lt.mp h2) (not_lt.mp h1)) hcd

theorem nameLt_append (a m : List Char) (hm : m ≠ []) :
    nameLt a (a ++ m) = true := by
  induction a with
  | nil =>
    cases m with
    | nil => exact absurd rfl hm
    | cons x xs => rfl
  | cons c as ih =>
    unfold nameLt
    simp only [List.cons_append]
    simp [ih]

theorem fsLe_total : ∀ f g : FsFile, fsLe f g ∨ fsLe g f := by
  intro f g
  unfold fsLe
  by_cases h : nameLt g.name f.name = true
  · right
    exact nameLt_asymm h
  · left
    exact Bool.not_eq_true _ |>.mp h

theorem fsLe_transitive : ∀ f g h : FsFile, fsLe f g → fsLe g h → fsLe f h := by
  intro f g h hfg hgh
  unfold fsLe at hfg hgh ⊢
  by_cases hc : nameLt h.name f.name = true
  · exfalso
    by_cases hgh2 : nameLt g.name h.name = true
    · have h3 := nameLt_trans hgh2 hc
      rw [h3] at hfg
      simp at hfg
    · have hgh2f : nameLt g.name h.name = false := Bool.not_eq_true _ |>.mp hgh2
      have heq : h.name = g.name := nameLt_conn hgh hgh2f
      rw [heq] at hc
      rw [hc] at hfg
      simp at hfg
  · exact Bool.not_eq_true _ |>.mp hc

theorem sortFs_perm (fs : Fs) : List.Perm (sortFs fs) fs :=
  List.perm_insertionSort fsLe fs

theorem mem_sortFs {f : FsFile} {fs : Fs} : f ∈ sortFs fs ↔ f ∈ fs :=
  (sortFs_perm fs).mem_iff

theorem sortFs_sorted (fs : Fs) : List.Sorted fsLe (sortFs fs) := by
  haveI : IsTotal FsFile fsLe := ⟨fsLe_total⟩
  haveI : IsTrans FsFile fsLe := ⟨fsLe_transitive⟩
  exact List.sorted_insertionSort fsLe fs

/-! ### Lookup lemmas -/

theorem fsLookup_name {fs : Fs} {n : List Char} {f : FsFile}
    (h : fsLookup fs n = some f) : f.name = n ∧ f ∈ fs := by
  unfold fsLookup at h
  have h1 := List.find?_some h
  have h2 := List.mem_of_find?_eq_some h
  exact ⟨by simpa using h1, h2⟩

theorem fsLookup_cons (g : FsFile) (gs : Fs) (n : List Char) :
    fsLookup (g :: gs) n = if g.name = n then some g else fsLookup gs n := by
  unfold fsLookup
  by_cases h : g.name = n
  · rw [if_pos h, List.find?_cons_of_pos]
    simp [h]
  · rw [if_neg h, List.find?_cons_of_neg]
    simp [h]

theorem fsLookup_append (fs1 fs2 : Fs) (n : List Char) :
    fsLookup (fs1 ++ fs2) n =
      match fsLookup fs1 n with
      | some f => some f
      | none => fsLookup fs2 n := by
  induction fs1 with
  | nil => simp [fsLookup]
  | cons g gs ih =>
    rw [List.cons_append, fsLookup_cons, fsLookup_cons]
    by_cases h : g.name = n
    · simp [h]
    · simp [h, ih]

theorem fsLookup_erase_self (fs : Fs) (n : List Char) :
    fsLookup (fsErase fs n) n = none := by
  induction fs with
  | nil => rfl
  | cons g gs ih =>
    unfold fsErase
    rw [List.filter_cons]
    by_cases h : g.name = n
    · have hb : (!(g.name == n)) = false := by simp [h]
      rw [hb, if_neg (by simp)]
      exact ih
    · have hb : (!(g.name == n)) = true := by simp [h]
      rw [if_pos hb, fsLookup_cons, if_neg h]
      exact ih

theorem fsLookup_erase_ne (fs : Fs) {n n2 : List Char} (h : n ≠ n2) :
    fsLookup (fsErase fs n) n2 = fsLookup fs n2 := by
  induction fs with
  | nil => rfl
  | cons g gs ih =>
    unfold fsErase
    rw [List.filter_cons]
    by_cases hg : g.name = n
    · have : (!(g.name == n)) = false := by simp [hg]
      rw [this, if_neg (by simp)]
      rw [fsLookup_cons, if_neg (by rw [hg]; exact h)]
      exact ih
    · have : (!(g.name == n)) = true := by simp [hg]
      rw [if_pos this, fsLookup_cons, fsLookup_cons]
      by_cases h2 : g.name = n2
      · rw [if_pos h2, if_pos h2]
      · rw [if_neg h2, if_neg h2]
        exact ih

theorem fsLookup_map_upd (fs : Fs) (n c : List Char) (n2 : List Char) :
    fsLookup (fs.map (fun f => if f.name == n then { f with content := c } else f)) n2
      = (fsLookup fs n2).map
          (fun f => if f.name == n then { f with content := c } else f) := by
  induction fs with
  | nil => rfl
  | cons g gs ih =>
    rw [List.map_cons, fsLookup_cons, fsLookup_cons]
    by_cases h : g.name = n2
    · have hname : (if g.name == n then { g with content := c } else g).name = n2 := by
        by_cases h2 : g.name == n
        · simp only [h2, if_pos]
          exact h
        · simp only [h2]
          simp only [Bool.false_eq_true, if_neg, if_false]
          exact h
      rw [if_pos hname, if_pos h]
      simp
    · have hname : (if g.name == n then { g with content := c } else g).name ≠ n2 := by
        by_cases h2 : g.name == n
        · simp only [h2, if_pos]
          exact h
        · simp only [h2]
          simp only [Bool.false_eq_true, if_neg, if_false]
          exact h
      rw [if_neg hname, if_neg h, ih]

theorem fsLookup_writeFile_self_some {fs : Fs} {n : List Char} {f0 : FsFile}
    (c : List Char) (m : Nat) (h : fsLookup fs n = some f0) :
    fsLookup (fsWriteFile fs n c m) n = some { f0 with content := c } := by
  unfold fsWriteFile
  rw [h, fsLookup_map_upd, h]
  have hn : f0.name = n := (fsLookup_name h).1
  simp [hn]

theorem fsLookup_writeFile_self_none {fs : Fs} {n : List Char}
    (c : List Char) (m : Nat) (h : fsLookup fs n = none) :
    fsLookup (fsWriteFile fs n c m) n = some ⟨n, c, m⟩ := by
  unfold fsWriteFile
  rw [h, fsLookup_append, h]
  show fsLookup [⟨n, c, m⟩] n = some ⟨n, c, m⟩
  rw [fsLookup_cons]
  simp

theorem fsLookup_writeFile_ne (fs : Fs) {n n2 : List Char}
    (c : List Char) (m : Nat) (h : n ≠ n2) :
    fsLookup (fsWriteFile fs n c m) n2 = fsLookup fs n2 := by
  unfold fsWriteFile
  cases hl : fsLookup fs n with
  | some f0 =>
    rw [fsLookup_map_upd]
    cases h2 : fsLookup fs n2 with
    | none => rfl
    | some f2 =>
      have hn2 : f2.name = n2 := (fsLookup_name h2).1
      have hne : (f2.name == n) = false := by
        rw [hn2]
        exact beq_eq_false_iff_ne.mpr (fun hh => h hh.symm)
      simp [Option.map, hne]
  | none =>
    rw [fsLookup_append]
    cases h2 : fsLookup fs n2 with
    | some f2 => rfl
    | none =>
      simp only
      rw [fsLookup_cons, if_neg h]
      rfl

/-! ### Claim C4: empty search text is rejected up front -/

/-- C4: for every request whose `OldText` is empty, `PerformReplacement`
rejects immediately: it returns the invalid-request error, reports an
empty modified list and a scanned count of 0, and leaves the directory
state untouched. -/
theorem c4_empty_searchText_rejected (opts : ReplaceOptions) (fail : FailSpec)
    (fs : Fs) (h : opts.oldText = []) :
    performReplacement opts fail fs = ⟨[], 0, some .invalidRequest, fs⟩ := by
  unfold performReplacement
  rw [h]
  rfl

/-- Witness for C4 at a concrete non-empty directory. -/
theorem c4_empty_searchText_rejected_witness :
    performReplacement ⟨['*'], [], ['y'], true⟩ noFail [⟨['a'], ['x'], 420⟩]
      = ⟨[], 0, some .invalidRequest, [⟨['a'], ['x'], 420⟩]⟩ :=
  c4_empty_searchText_rejected ⟨['*'], [], ['y'], true⟩ noFail [⟨['a'], ['x'], 420⟩] rfl

/-! ### Claim C6: a malformed pattern aborts the whole traversal -/

/-- C6: a malformed glob pattern — one the matcher rejects on every file
name, as it does for an unterminated bracket expression like `"[abc"` — on
a request with non-empty search text and a directory holding at least one
regular file makes `PerformReplacement` abort at the very first visited
file: it returns the invalid-pattern error, zero modified files, a scanned
count of 0, and an untouched directory state, regardless of the directory
contents and of any injected I/O failures. -/
theorem c6_malformed_pattern_aborts (opts : ReplaceOptions) (fail : FailSpec)
    (fs : Fs) (hold : opts.oldText ≠ []) (hfs : fs ≠ [])
    (herr : ∀ f ∈ fs, matchesPattern f.name opts.pattern = .error .badPattern) :
    performReplacement opts fail fs = ⟨[], 0, some .invalidPattern, fs⟩ := by
  unfold performReplacement
  rw [if_neg (by simp [List.isEmpty_iff, hold])]
  cases hs : sortFs fs with
  | nil =>
    exfalso
    have hlen := (sortFs_perm fs).length_eq
    rw [hs] at hlen
    cases fs with
    | nil => exact hfs rfl
    | cons a as => simp at hlen
  | cons f rest =>
    have hf : f ∈ fs := mem_sortFs.mp (by rw [hs]; exact List.mem_cons_self f rest)
    have herr2 := herr f hf
    unfold walkOf
    rw [hs, List.map_cons]
    simp only [replaceWalk, replaceStep, herr2]
    rfl

/-- Witness for C6: the pattern `"[abc"` on a one-file directory. -/
theorem c6_malformed_pattern_aborts_witness :
    performReplacement ⟨['[', 'a', 'b', 'c'], ['x'], [], false⟩ noFail
        [⟨['f'], ['x'], 420⟩]
      = ⟨[], 0, some .invalidPattern, [⟨['f'], ['x'], 420⟩]⟩ :=
  c6_malformed_pattern_aborts ⟨['[', 'a', 'b', 'c'], ['x'], [], false⟩ noFail
    [⟨['f'], ['x'], 420⟩] (by decide) (by decide) (by decide)

/-! ### Shape lemmas for the replacement walk -/

theorem repFinish_filesProcessed (r : RepAcc × Option EngineErr) :
    (repFinish r).filesProcessed = r.1.filesProcessed := by
  rcases r with ⟨a, w⟩
  cases w <;> rfl

theorem repFinish_modifiedFiles (r : RepAcc × Option EngineErr) :
    (repFinish r).modifiedFiles = r.1.modifiedFiles := by
  rcases r with ⟨a, w⟩
  cases w <;> rfl

theorem repFinish_fs (r : RepAcc × Option EngineErr) :
    (repFinish r).fs = r.1.fs := by
  rcases r with ⟨a, w⟩
  cases w <;> rfl

theorem repFinish_err_none {r : RepAcc × Option EngineErr} (h : r.2 = none) :
    (repFinish r).err = r.1.firstErr := by
  rcases r with ⟨a, w⟩
  simp only at h
  subst h
  rfl

theorem replaceStep_access (opts : ReplaceOptions) (fail : FailSpec) (acc : RepAcc)
    (p : List Char) :
    replaceStep opts fail acc (.access p)
      = .ok { acc with firstErr := noteErr acc.firstErr (.accessError p) } := rfl

theorem replaceStep_file_notMatched (opts : ReplaceOptions) (fail : FailSpec)
    (acc : RepAcc) (n : List Char) (hm : matchesPattern n opts.pattern = .ok false) :
    replaceStep opts fail acc (.file n) = .ok acc := by
  simp only [replaceStep, hm]

/-- Shape of the backup phase: it only touches the backup path on disk,
changes no counter and no modified list, and never overwrites an
already-recorded first error. -/
theorem backupPhase_shape (opts : ReplaceOptions) (fail : FailSpec) (acc1 : RepAcc)
    (name : List Char) :
    (backupPhase opts fail acc1 name).filesProcessed = acc1.filesProcessed ∧
    (backupPhase opts fail acc1 name).modifiedFiles = acc1.modifiedFiles ∧
    (∀ tgt, tgt ≠ name ++ bakSuffix →
      fsLookup (backupPhase opts fail acc1 name).fs tgt = fsLookup acc1.fs tgt) ∧
    (∀ e, acc1.firstErr = some e → (backupPhase opts fail acc1 name).firstErr = some e) := by
  unfold backupPhase
  by_cases hsb : opts.shouldBackup = true
  · rw [if_pos hsb]
    cases hcb : createBackup fail acc1.fs name with
    | none =>
      exact ⟨rfl, rfl, fun tgt ht => rfl, fun e he => by simp [noteErr, he]⟩
    | some fs2 =>
      refine ⟨rfl, rfl, fun tgt ht => ?_, fun e he => he⟩
      unfold createBackup at hcb
      by_cases hbf : fail.backupFails name = true
      · rw [if_pos hbf] at hcb
        cases hcb
      · rw [if_neg hbf] at hcb
        cases hlk : fsLookup acc1.fs name with
        | none => rw [hlk] at hcb; cases hcb
        | some f =>
          rw [hlk] at hcb
          injection hcb with hcb
          subst hcb
          exact fsLookup_writeFile_ne _ _ _ (fun hh => ht hh.symm)
  · rw [if_neg hsb]
    exact ⟨rfl, rfl, fun tgt ht => rfl, fun e he => he⟩

/-- Shape of the read/replace/write phase: it only touches the file
itself on disk, bumps no counter, appends at most the file itself to the
modified list, and never overwrites an already-recorded first error. -/
theorem rwPhase_shape (opts : ReplaceOptions) (fail : FailSpec) (acc2 : RepAcc)
    (name : List Char) :
    (rwPhase opts fail acc2 name).filesProcessed = acc2.filesProcessed ∧
    ((rwPhase opts fail acc2 name).modifiedFiles = acc2.modifiedFiles ∨
      (rwPhase opts fail acc2 name).modifiedFiles = acc2.modifiedFiles ++ [name]) ∧
    (∀ tgt, tgt ≠ name →
      fsLookup (rwPhase opts fail acc2 name).fs tgt = fsLookup acc2.fs tgt) ∧
    (∀ e, acc2.firstErr = some e → (rwPhase opts fail acc2 name).firstErr = some e) := by
  unfold rwPhase
  split
  · exact ⟨rfl, Or.inl rfl, fun tgt ht => rfl, fun e he => by simp [noteErr, he]⟩
  · rename_i f hrd
    by_cases hct : stringsContains f.content opts.oldText = true
    · rw [if_pos hct]
      by_cases hwf : fail.writeFails name = true
      · rw [if_pos hwf]
        exact ⟨rfl, Or.inl rfl, fun tgt ht => rfl, fun e he => by simp [noteErr, he]⟩
      · rw [if_neg hwf]
        refine ⟨rfl, Or.inr rfl, fun tgt ht => ?_, fun e he => he⟩
        exact fsLookup_writeFile_ne _ _ _ (fun hh => ht hh.symm)
    · rw [if_neg hct]
      exact ⟨rfl, Or.inl rfl, fun tgt ht => rfl, fun e he => he⟩

/-- Shape of one matched-file step: it always succeeds, bumps the scanned
counter by one, appends at most the file itself to the modified list,
touches at most the file itself and its backup on disk, and never
overwrites an already-recorded first error. -/
theorem replaceStep_file_matched (opts : ReplaceOptions) (fail : FailSpec)
    (acc : RepAcc) (n : List Char) (hm : matchesPattern n opts.pattern = .ok true) :
    ∃ acc2, replaceStep opts fail acc (.file n) = .ok acc2 ∧
      acc2.filesProcessed = acc.filesProcessed + 1 ∧
      (acc2.modifiedFiles = acc.modifiedFiles ∨
        acc2.modifiedFiles = acc.modifiedFiles ++ [n]) ∧
      (∀ tgt, tgt ≠ n → tgt ≠ n ++ bakSuffix →
        fsLookup acc2.fs tgt = fsLookup acc.fs tgt) ∧
      (∀ e, acc.firstErr = some e → acc2.firstErr = some e) := by
  obtain ⟨b1, b2, b3, b4⟩ := backupPhase_shape opts fail
    { acc with filesProcessed := acc.filesProcessed + 1 } n
  obtain ⟨r1, r2, r3, r4⟩ := rwPhase_shape opts fail
    (backupPhase opts fail { acc with filesProcessed := acc.filesProcessed + 1 } n) n
  refine ⟨rwPhase opts fail
      (backupPhase opts fail { acc with filesProcessed := acc.filesProcessed + 1 } n) n,
    by simp only [replaceStep, hm], ?_, ?_, ?_, ?_⟩
  · rw [r1, b1]
  · rcases r2 with h | h
    · left; rw [h, b2]
    · right; rw [h, b2]
  · intro tgt h1 h2
    rw [r3 tgt h1, b3 tgt h2]
  · intro e he
    exact r4 e (b4 e he)

/-- When the pattern evaluates without error on every visited file name,
the walk never aborts and the scanned counter counts exactly the matched
file events — independent of injected I/O failures. -/
theorem replaceWalk_noFatal_count (opts : ReplaceOptions) (fail : FailSpec)
    (evs : List WalkEvent) (acc : RepAcc)
    (hok : ∀ n, WalkEvent.file n ∈ evs → exceptIsOk (matchesPattern n opts.pattern) = true) :
    (replaceWalk opts fail acc evs).2 = none ∧
    (replaceWalk opts fail acc evs).1.filesProcessed
      = acc.filesProcessed + (evs.filter (isFileMatch opts)).length := by
  induction evs generalizing acc with
  | nil => simp [replaceWalk]
  | cons e rest ih =>
    have hrest : ∀ n, WalkEvent.file n ∈ rest →
        exceptIsOk (matchesPattern n opts.pattern) = true :=
      fun n hn => hok n (List.mem_cons_of_mem _ hn)
    cases e with
    | access p =>
      unfold replaceWalk
      rw [replaceStep_access]
      obtain ⟨ihA, ihB⟩ := ih _ hrest
      refine ⟨ihA, ?_⟩
      rw [ihB, List.filter_cons]
      simp [isFileMatch]
    | file n =>
      have hn := hok n (List.mem_cons_self _ _)
      cases hmp : matchesPattern n opts.pattern with
      | error e2 =>
        rw [hmp] at hn
        simp [exceptIsOk] at hn
      | ok b =>
        cases b with
        | false =>
          unfold replaceWalk
          rw [replaceStep_file_notMatched _ _ _ _ hmp]
          obtain ⟨ihA, ihB⟩ := ih _ hrest
          refine ⟨ihA, ?_⟩
          rw [ihB, List.filter_cons]
          have hmf : isFileMatch opts (.file n) = false := by
            simp [isFileMatch, isMatched, hmp]
          rw [hmf]
          simp
        | true =>
          obtain ⟨acc2, hstep, hproc, -, -, -⟩ :=
            replaceStep_file_matched opts fail acc n hmp
          unfold replaceWalk
          rw [hstep]
          obtain ⟨ihA, ihB⟩ := ih acc2 hrest
          refine ⟨ihA, ?_⟩
          rw [ihB, hproc, List.filter_cons]
          have hmf : isFileMatch opts (.file n) = true := by
            simp [isFileMatch, isMatched, hmp]
          rw [hmf]
          simp only [if_pos, List.length_cons]
          omega

/-! ### Claim C3: the scanned count equals the number of matched files -/

/-- C3: for every directory and every request with a non-empty search
text whose pattern evaluates without error on every file name, the
`filesProcessed` count returned by `PerformReplacement` equals the number
of regular files whose base name the pattern matches — independent of
injected I/O failures. -/
theorem c3_scannedCount_eq_matched (opts : ReplaceOptions) (fail : FailSpec) (fs : Fs)
    (hold : opts.oldText ≠ [])
    (hok : ∀ f ∈ fs, exceptIsOk (matchesPattern f.name opts.pattern) = true) :
    (performReplacement opts fail fs).filesProcessed
      = (fs.filter (fun f => isMatched opts f.name)).length := by
  unfold performReplacement
  rw [if_neg (by simp [List.isEmpty_iff, hold])]
  have hok2 : ∀ n, WalkEvent.file n ∈ walkOf fs →
      exceptIsOk (matchesPattern n opts.pattern) = true := by
    intro n hn
    unfold walkOf at hn
    obtain ⟨f, hf, hfe⟩ := List.mem_map.mp hn
    injection hfe with hfe
    subst hfe
    exact hok f (mem_sortFs.mp hf)
  obtain ⟨hA, hB⟩ := replaceWalk_noFatal_count opts fail (walkOf fs) ⟨[], 0, none, fs⟩ hok2
  rw [repFinish_filesProcessed, hB]
  simp only [Nat.zero_add]
  unfold walkOf
  rw [List.filter_map, List.length_map]
  have hperm := (sortFs_perm fs).countP_eq (fun f => isMatched opts f.name)
  rw [← List.countP_eq_length_filter, ← List.countP_eq_length_filter]
  convert hperm using 2

/-- Witness for C3: two files, one matching `*.txt`. -/
theorem c3_scannedCount_eq_matched_witness :
    (performReplacement ⟨['*', '.', 't', 'x', 't'], ['h', 'i'], ['y', 'o'], true⟩ noFail
        ([⟨['a', '.', 't', 'x', 't'], ['h', 'i'], 420⟩,
          ⟨['b', '.', 'l', 'o', 'g'], ['h', 'i'], 420⟩] : Fs)).filesProcessed
      = (([⟨['a', '.', 't', 'x', 't'], ['h', 'i'], 420⟩,
          ⟨['b', '.', 'l', 'o', 'g'], ['h', 'i'], 420⟩] : Fs).filter
          (fun f => isMatched ⟨['*', '.', 't', 'x', 't'], ['h', 'i'], ['y', 'o'], true⟩ f.name)).length :=
  c3_scannedCount_eq_matched ⟨['*', '.', 't', 'x', 't'], ['h', 'i'], ['y', 'o'], true⟩ noFail
    ([⟨['a', '.', 't', 'x', 't'], ['h', 'i'], 420⟩,
      ⟨['b', '.', 'l', 'o', 'g'], ['h', 'i'], 420⟩] : Fs)
    (by decide) (by decide)

/-! ### Claim C9: clean deletes exactly the `.bak` files -/

theorem fsLookup_ne_none_of_mem {f : FsFile} {fs : Fs} (h : f ∈ fs) :
    fsLookup fs f.name ≠ none := by
  induction fs with
  | nil => cases h
  | cons g gs ih =>
    rw [fsLookup_cons]
    by_cases hg : g.name = f.name
    · rw [if_pos hg]
      simp
    · rw [if_neg hg]
      rcases List.mem_cons.mp h with h1 | h1
      · subst h1
        exact absurd rfl hg
      · exact ih h1

/-- A failure-free clean walk over distinct, present file events removes
exactly the visited `.bak` files, counts them, and records no error. -/
theorem cleanWalk_spec (evs : List WalkEvent) (acc : RrAcc)
    (hfiles : ∀ e ∈ evs, ∃ n, e = WalkEvent.file n)
    (hnd : (eventNames evs).Nodup)
    (hpres : ∀ n, WalkEvent.file n ∈ evs → fsLookup acc.fs n ≠ none) :
    (cleanWalk noFail acc evs).fs
      = acc.fs.filter (fun f => !(endsWithBak f.name && (eventNames evs).contains f.name)) ∧
    (cleanWalk noFail acc evs).count
      = acc.count + ((eventNames evs).filter endsWithBak).length ∧
    (cleanWalk noFail acc evs).firstErr = acc.firstErr := by
  induction evs generalizing acc with
  | nil =>
    refine ⟨?_, by simp [cleanWalk, eventNames], by simp [cleanWalk]⟩
    simp [cleanWalk, eventNames]
  | cons e rest ih =>
    obtain ⟨n, rfl⟩ := hfiles e (List.mem_cons_self _ _)
    have hnames : eventNames (WalkEvent.file n :: rest) = n :: eventNames rest := rfl
    have hnd2 : (eventNames rest).Nodup := by
      rw [hnames] at hnd
      exact hnd.of_cons
    have hnotin : n ∉ eventNames rest := by
      rw [hnames] at hnd
      exact (List.nodup_cons.mp hnd).1
    have hfiles2 : ∀ e ∈ rest, ∃ m, e = WalkEvent.file m :=
      fun e he => hfiles e (List.mem_cons_of_mem _ he)
    by_cases hb : endsWithBak n = true
    · have hlk := hpres n (List.mem_cons_self _ _)
      cases hlk2 : fsLookup acc.fs n with
      | none => exact absurd hlk2 hlk
      | some f0 =>
        have h0 : (if noFail.removeFails n = true then none else fsRemove acc.fs n)
            = some (fsErase acc.fs n) := by
          show fsRemove acc.fs n = some (fsErase acc.fs n)
          unfold fsRemove
          rw [hlk2]
        have hstep : cleanStep noFail acc (.file n)
            = { acc with fs := fsErase acc.fs n,
                         actedPaths := acc.actedPaths ++ [n], count := acc.count + 1 } := by
          simp only [cleanStep]
          rw [hb]
          rw [if_neg (by simp)]
          rw [h0]
        unfold cleanWalk
        rw [hstep]
        obtain ⟨ihA, ihB, ihC⟩ := ih
          ⟨acc.actedPaths ++ [n], acc.count + 1, acc.firstErr, fsErase acc.fs n⟩
          hfiles2 hnd2 (by
          intro m hm
          have hmn : m ≠ n := by
            intro hcon
            subst hcon
            exact hnotin (by
              unfold eventNames
              exact List.mem_map.mpr ⟨.file m, hm, rfl⟩)
          show fsLookup (fsErase acc.fs n) m ≠ none
          rw [fsLookup_erase_ne _ (fun hh => hmn hh.symm)]
          exact hpres m (List.mem_cons_of_mem _ hm))
        refine ⟨?_, ?_, ihC⟩
        · rw [ihA]
          simp only
          unfold fsErase
          rw [List.filter_filter]
          rw [hnames]
          refine List.filter_congr ?_
          intro f hf
          by_cases hfn : f.name = n
          · simp [hfn, hb]
          · simp only [List.contains_cons]
            have h1 : (f.name == n) = false := beq_eq_false_iff_ne.mpr hfn
            have h2 : (n == f.name) = false := beq_eq_false_iff_ne.mpr (fun hh => hfn hh.symm)
            simp [h1, h2]
        · rw [ihB, hnames, List.filter_cons, hb]
          simp only [if_pos, List.length_cons]
          omega
    · have hbf : endsWithBak n = false := Bool.not_eq_true _ |>.mp hb
      have hstep : cleanStep noFail acc (.file n) = acc := by
        simp only [cleanStep]
        rw [hbf]
        rw [if_pos (by simp)]
      unfold cleanWalk
      rw [hstep]
      obtain ⟨ihA, ihB, ihC⟩ := ih _ hfiles2 hnd2
        (fun m hm => hpres m (List.mem_cons_of_mem _ hm))
      refine ⟨?_, ?_, ihC⟩
      · rw [ihA, hnames]
        refine List.filter_congr ?_
        intro f hf
        by_cases hfn : f.name = n
        · simp [hfn, hbf]
        · simp only [List.contains_cons]
          have h1 : (f.name == n) = false := beq_eq_false_iff_ne.mpr hfn
          have h2 : (n == f.name) = false := beq_eq_false_iff_ne.mpr (fun hh => hfn hh.symm)
          simp [h1, h2]
      · rw [ihB, hnames, List.filter_cons, hbf]
        simp

theorem fsNames_sortFs_nodup {fs : Fs} (hu : fsUnique fs) :
    (fsNames (sortFs fs)).Nodup := by
  have hperm : List.Perm (fsNames (sortFs fs)) (fsNames fs) :=
    (sortFs_perm fs).map FsFile.name
  exact hperm.nodup_iff.mpr hu

theorem eventNames_walkOf (fs : Fs) : eventNames (walkOf fs) = fsNames (sortFs fs) := by
  unfold eventNames walkOf fsNames
  rw [List.map_map]
  rfl

theorem walkOf_files (fs : Fs) : ∀ e ∈ walkOf fs, ∃ n, e = WalkEvent.file n := by
  intro e he
  unfold walkOf at he
  obtain ⟨f, -, hfe⟩ := List.mem_map.mp he
  exact ⟨f.name, hfe.symm⟩

theorem mem_eventNames_walkOf {fs : Fs} {n : List Char} :
    n ∈ eventNames (walkOf fs) ↔ ∃ f ∈ fs, f.name = n := by
  rw [eventNames_walkOf]
  unfold fsNames
  rw [List.mem_map]
  constructor
  · rintro ⟨f, hf, he⟩
    exact ⟨f, mem_sortFs.mp hf, he⟩
  · rintro ⟨f, hf, he⟩
    exact ⟨f, mem_sortFs.mpr hf, he⟩

/-- Failure-free `PerformClean` on a well-formed directory: final state,
count, and error. -/
theorem performClean_spec (fs : Fs) (hu : fsUnique fs) :
    (performClean noFail fs).fs = fs.filter (fun f => !endsWithBak f.name) ∧
    (performClean noFail fs).count = (fs.filter (fun f => endsWithBak f.name)).length ∧
    (performClean noFail fs).firstErr = none := by
  unfold performClean
  obtain ⟨hA, hB, hC⟩ := cleanWalk_spec (walkOf fs) ⟨[], 0, none, fs⟩
    (walkOf_files fs)
    (by rw [eventNames_walkOf]; exact fsNames_sortFs_nodup hu)
    (by
      intro n hn
      have : n ∈ eventNames (walkOf fs) := by
        unfold eventNames
        exact List.mem_map.mpr ⟨.file n, hn, rfl⟩
      obtain ⟨f, hf, hfn⟩ := mem_eventNames_walkOf.mp this
      subst hfn
      exact fsLookup_ne_none_of_mem hf)
  refine ⟨?_, ?_, hC⟩
  · rw [hA]
    refine List.filter_congr ?_
    intro f hf
    have hmem : f.name ∈ eventNames (walkOf fs) :=
      mem_eventNames_walkOf.mpr ⟨f, hf, rfl⟩
    have hcon : (eventNames (walkOf fs)).contains f.name = true := by
      simp [List.contains, List.elem_iff, hmem]
    rw [hcon]
    simp
  · rw [hB]
    simp only [Nat.zero_add]
    rw [eventNames_walkOf]
    unfold fsNames
    rw [List.filter_map, List.length_map]
    have hperm := (sortFs_perm fs).countP_eq (fun f => endsWithBak f.name)
    rw [← List.countP_eq_length_filter, ← List.countP_eq_length_filter]
    convert hperm using 2

/-- C9: `PerformClean` deletes exactly the regular files whose name ends
in the literal suffix `.bak` (every other file is left untouched, entry
for entry), and a second clean run on the resulting directory reports
zero files cleaned with no error. -/
theorem c9_clean_exactly_bak_and_idempotent (fs : Fs) (hu : fsUnique fs) :
    (performClean noFail fs).fs = fs.filter (fun f => !endsWithBak f.name) ∧
    (performClean noFail fs).count = (fs.filter (fun f => endsWithBak f.name)).length ∧
    (performClean noFail fs).firstErr = none ∧
    (performClean noFail (performClean noFail fs).fs).count = 0 ∧
    (performClean noFail (performClean noFail fs).fs).firstErr = none := by
  obtain ⟨h1, h2, h3⟩ := performClean_spec fs hu
  have hu2 : fsUnique ((performClean noFail fs).fs) := by
    rw [h1]
    unfold fsUnique fsNames at hu ⊢
    exact ((List.filter_sublist fs).map FsFile.name).nodup hu
  obtain ⟨g1, g2, g3⟩ := performClean_spec ((performClean noFail fs).fs) hu2
  refine ⟨h1, h2, h3, ?_, g3⟩
  rw [g2]
  rw [h1]
  have : (fs.filter (fun f => !endsWithBak f.name)).filter
      (fun f => endsWithBak f.name) = [] := by
    rw [List.filter_filter]
    refine List.filter_eq_nil.mpr ?_
    intro f hf
    cases hb : endsWithBak f.name <;> simp [hb]
  rw [this]
  rfl

/-- Witness for C9 on a directory holding one `.bak` and one plain file. -/
theorem c9_clean_exactly_bak_and_idempotent_witness :
    (performClean noFail ([⟨['a'], ['x'], 420⟩, ⟨['a', '.', 'b', 'a', 'k'], ['y'], 420⟩] : Fs)).fs
        = ([⟨['a'], ['x'], 420⟩, ⟨['a', '.', 'b', 'a', 'k'], ['y'], 420⟩] : Fs).filter
            (fun f => !endsWithBak f.name) ∧
      (performClean noFail ([⟨['a'], ['x'], 420⟩, ⟨['a', '.', 'b', 'a', 'k'], ['y'], 420⟩] : Fs)).count
        = (([⟨['a'], ['x'], 420⟩, ⟨['a', '.', 'b', 'a', 'k'], ['y'], 420⟩] : Fs).filter
            (fun f => endsWithBak f.name)).length ∧
      (performClean noFail ([⟨['a'], ['x'], 420⟩, ⟨['a', '.', 'b', 'a', 'k'], ['y'], 420⟩] : Fs)).firstErr = none ∧
      (performClean noFail (performClean noFail
          ([⟨['a'], ['x'], 420⟩, ⟨['a', '.', 'b', 'a', 'k'], ['y'], 420⟩] : Fs)).fs).count = 0 ∧
      (performClean noFail (performClean noFail
          ([⟨['a'], ['x'], 420⟩, ⟨['a', '.', 'b', 'a', 'k'], ['y'], 420⟩] : Fs)).fs).firstErr = none :=
  c9_clean_exactly_bak_and_idempotent
    ([⟨['a'], ['x'], 420⟩, ⟨['a', '.', 'b', 'a', 'k'], ['y'], 420⟩] : Fs) (by decide)

/-! ### Claim C2: idempotence of the replacement run -/

/-- C2 counterexample: with search text `"ab"` and replacement `"b"` (the
replacement does *not* contain the search text), a file `"aab"` is
rewritten to `"ab"` by the first run — which still contains the search
text, recreated across the replacement boundary — so the second run's
affected list is `["f"]`, not empty. -/
theorem c2_idempotence_counterexample :
    stringsContains ['b'] ['a', 'b'] = false ∧
    (performReplacement ⟨['*'], ['a', 'b'], ['b'], false⟩ noFail
        ([⟨['f'], ['a', 'a', 'b'], 420⟩] : Fs)).fs
      = ([⟨['f'], ['a', 'b'], 420⟩] : Fs) ∧
    (performReplacement ⟨['*'], ['a', 'b'], ['b'], false⟩ noFail
      (performReplacement ⟨['*'], ['a', 'b'], ['b'], false⟩ noFail
        ([⟨['f'], ['a', 'a', 'b'], 420⟩] : Fs)).fs).modifiedFiles = [['f']] := by
  decide

theorem fsWriteFile_mem {fs : Fs} {n c : List Char} {m : Nat} {g : FsFile}
    (hg : g ∈ fsWriteFile fs n c m) : g ∈ fs ∨ g.content = c := by
  unfold fsWriteFile at hg
  cases h : fsLookup fs n with
  | some f0 =>
    rw [h] at hg
    obtain ⟨g0, hg0, hup⟩ := List.mem_map.mp hg
    by_cases hname : (g0.name == n) = true
    · rw [if_pos hname] at hup
      right
      rw [← hup]
    · rw [if_neg hname] at hup
      left
      rw [← hup]
      exact hg0
  | none =>
    rw [h] at hg
    rcases List.mem_append.mp hg with h1 | h1
    · exact Or.inl h1
    · right
      rcases List.mem_singleton.mp h1 with rfl
      rfl

/-- Membership in the disk state after the backup phase: every file is an
old file or carries the content of an old file (the backup copy). -/
theorem backupPhase_fs_mem (opts : ReplaceOptions) (fail : FailSpec) (acc1 : RepAcc)
    (name : List Char) {g : FsFile}
    (hg : g ∈ (backupPhase opts fail acc1 name).fs) :
    g ∈ acc1.fs ∨ ∃ f ∈ acc1.fs, g.content = f.content := by
  unfold backupPhase at hg
  by_cases hsb : opts.shouldBackup = true
  · rw [if_pos hsb] at hg
    cases hcb : createBackup fail acc1.fs name with
    | none =>
      rw [hcb] at hg
      exact Or.inl hg
    | some fs2 =>
      rw [hcb] at hg
      unfold createBackup at hcb
      by_cases hbf : fail.backupFails name = true
      · rw [if_pos hbf] at hcb
        cases hcb
      · rw [if_neg hbf] at hcb
        cases hlk : fsLookup acc1.fs name with
        | none => rw [hlk] at hcb; cases hcb
        | some f =>
          rw [hlk] at hcb
          injection hcb with hcb
          subst hcb
          rcases fsWriteFile_mem hg with h1 | h1
          · exact Or.inl h1
          · exact Or.inr ⟨f, (fsLookup_name hlk).2, h1⟩
  · rw [if_neg hsb] at hg
    exact Or.inl hg

/-- When no file on disk contains the search text, the read/replace/write
phase modifies nothing: same modified list and same disk state. -/
theorem rwPhase_converged (opts : ReplaceOptions) (fail : FailSpec) (acc2 : RepAcc)
    (name : List Char)
    (hinv : ∀ f ∈ acc2.fs, stringsContains f.content opts.oldText = false) :
    (rwPhase opts fail acc2 name).modifiedFiles = acc2.modifiedFiles ∧
    (rwPhase opts fail acc2 name).fs = acc2.fs := by
  unfold rwPhase
  split
  · exact ⟨rfl, rfl⟩
  · rename_i f hrd
    have hf : f ∈ acc2.fs := by
      by_cases hrf : fail.readFails name = true
      · rw [if_pos hrf] at hrd
        cases hrd
      · rw [if_neg hrf] at hrd
        exact (fsLookup_name hrd).2
    rw [if_neg (by rw [hinv f hf]; exact Bool.false_ne_true)]
    exact ⟨rfl, rfl⟩

/-- A replacement walk over a converged state (no content contains the
search text) modifies no file and leaves the disk state unchanged. -/
theorem replaceWalk_converged (opts : ReplaceOptions) (fail : FailSpec)
    (evs : List WalkEvent) (acc : RepAcc)
    (hok : ∀ n, WalkEvent.file n ∈ evs → exceptIsOk (matchesPattern n opts.pattern) = true)
    (hinv : ∀ f ∈ acc.fs, stringsContains f.content opts.oldText = false) :
    (replaceWalk opts fail acc evs).1.modifiedFiles = acc.modifiedFiles := by
  induction evs generalizing acc with
  | nil => rfl
  | cons e rest ih =>
    have hrest : ∀ n, WalkEvent.file n ∈ rest →
        exceptIsOk (matchesPattern n opts.pattern) = true :=
      fun n hn => hok n (List.mem_cons_of_mem _ hn)
    cases e with
    | access p =>
      unfold replaceWalk
      rw [replaceStep_access]
      exact ih _ hrest hinv
    | file n =>
      have hn := hok n (List.mem_cons_self _ _)
      cases hmp : matchesPattern n opts.pattern with
      | error e2 =>
        rw [hmp] at hn
        simp [exceptIsOk] at hn
      | ok b =>
        cases b with
        | false =>
          unfold replaceWalk
          rw [replaceStep_file_notMatched _ _ _ _ hmp]
          exact ih _ hrest hinv
        | true =>
          unfold replaceWalk
          have hstep : replaceStep opts fail acc (.file n)
              = .ok (rwPhase opts fail
                  (backupPhase opts fail
                    { acc with filesProcessed := acc.filesProcessed + 1 } n) n) := by
            simp only [replaceStep, hmp]
          rw [hstep]
          have hinvb : ∀ f ∈ (backupPhase opts fail
              { acc with filesProcessed := acc.filesProcessed + 1 } n).fs,
              stringsContains f.content opts.oldText = false := by
            intro f hf
            rcases backupPhase_fs_mem opts fail _ n hf with h1 | ⟨f2, hf2, hc⟩
            · exact hinv f h1
            · rw [hc]
              exact hinv f2 hf2
          obtain ⟨hmod, hfs⟩ := rwPhase_converged opts fail _ n hinvb
          have hres := ih (rwPhase opts fail
              (backupPhase opts fail
                { acc with filesProcessed := acc.filesProcessed + 1 } n) n) hrest (by
            rw [hfs]
            exact hinvb)
          rw [hres, hmod]
          exact (backupPhase_shape opts fail _ n).2.1

/-- A full `PerformReplacement` run on a converged directory reports an
empty modified list. -/
theorem performReplacement_converged (opts : ReplaceOptions) (fail : FailSpec) (fs : Fs)
    (hok : ∀ f ∈ fs, exceptIsOk (matchesPattern f.name opts.pattern) = true)
    (hinv : ∀ f ∈ fs, stringsContains f.content opts.oldText = false) :
    (performReplacement opts fail fs).modifiedFiles = [] := by
  unfold performReplacement
  by_cases hold : opts.oldText.isEmpty = true
  · rw [if_pos hold]
  · rw [if_neg hold]
    rw [repFinish_modifiedFiles]
    refine replaceWalk_converged opts fail (walkOf fs) ⟨[], 0, none, fs⟩ ?_ hinv
    intro n hn
    obtain ⟨f, hf, hfn⟩ := mem_eventNames_walkOf.mp (by
      unfold eventNames
      exact List.mem_map.mpr ⟨.file n, hn, rfl⟩)
    subst hfn
    exact hok f hf

/-- C2 (amended): running `PerformReplacement` twice with the same
request yields an empty affected list on the second run *provided* no
file content still contains the search text after the first run.  The
claim's own hypothesis — that the replacement text does not contain the
search text — is not sufficient, because occurrences can be recreated at
the boundary of a replacement (see the counterexample). -/
theorem c2_second_run_empty_when_converged (opts : ReplaceOptions)
    (fail1 fail2 : FailSpec) (fs : Fs)
    (hok : ∀ f ∈ (performReplacement opts fail1 fs).fs,
      exceptIsOk (matchesPattern f.name opts.pattern) = true)
    (hconv : ∀ f ∈ (performReplacement opts fail1 fs).fs,
      stringsContains f.content opts.oldText = false) :
    (performReplacement opts fail2 (performReplacement opts fail1 fs).fs).modifiedFiles
      = [] :=
  performReplacement_converged opts fail2 _ hok hconv

/-- Witness for the amended C2: one file `"x"`, search `"x"`, replacement
`"y"`; after the first run the content is `"y"` and the second run
modifies nothing. -/
theorem c2_second_run_empty_when_converged_witness :
    (performReplacement ⟨['*'], ['x'], ['y'], false⟩ noFail
      (performReplacement ⟨['*'], ['x'], ['y'], false⟩ noFail
        ([⟨['f'], ['x'], 420⟩] : Fs)).fs).modifiedFiles = [] :=
  c2_second_run_empty_when_converged ⟨['*'], ['x'], ['y'], false⟩ noFail noFail
    ([⟨['f'], ['x'], 420⟩] : Fs) (by decide) (by decide)

/-! ### Localization lemmas for the replacement walk -/

theorem self_ne_append_bak (n : List Char) : n ≠ n ++ bakSuffix := by
  intro h
  have hlen := congrArg List.length h
  simp [bakSuffix] at hlen

theorem fsLookup_of_mem_unique {fs : Fs} {f : FsFile} (hu : fsUnique fs)
    (hf : f ∈ fs) : fsLookup fs f.name = some f := by
  induction fs with
  | nil => cases hf
  | cons g gs ih =>
    unfold fsUnique fsNames at hu
    rw [List.map_cons, List.nodup_cons] at hu
    rw [fsLookup_cons]
    rcases List.mem_cons.mp hf with h1 | h1
    · subst h1
      rw [if_pos rfl]
    · by_cases hg : g.name = f.name
      · exfalso
        exact hu.1 (hg ▸ List.mem_map.mpr ⟨f, h1, rfl⟩)
      · rw [if_neg hg]
        exact ih hu.2 h1

/-- With an error-free pattern the callback never returns a fatal error. -/
theorem replaceStep_ok (opts : ReplaceOptions) (fail : FailSpec) (acc : RepAcc)
    (e : WalkEvent)
    (hok : ∀ n, e = WalkEvent.file n → exceptIsOk (matchesPattern n opts.pattern) = true) :
    ∃ acc2, replaceStep opts fail acc e = .ok acc2 := by
  cases e with
  | access p => exact ⟨_, replaceStep_access opts fail acc p⟩
  | file n =>
    have hn := hok n rfl
    cases hmp : matchesPattern n opts.pattern with
    | error e2 =>
      rw [hmp] at hn
      simp [exceptIsOk] at hn
    | ok b =>
      cases b with
      | false => exact ⟨acc, replaceStep_file_notMatched _ _ _ _ hmp⟩
      | true =>
        obtain ⟨acc2, hstep, -⟩ := replaceStep_file_matched opts fail acc n hmp
        exact ⟨acc2, hstep⟩

theorem replaceWalk_cons_ok {opts : ReplaceOptions} {fail : FailSpec} {acc acc2 : RepAcc}
    {e : WalkEvent} (h : replaceStep opts fail acc e = .ok acc2) (rest : List WalkEvent) :
    replaceWalk opts fail acc (e :: rest) = replaceWalk opts fail acc2 rest := by
  simp only [replaceWalk, h]

/-- Decomposition of the walk along an event-list split (valid while the
first part raises no fatal error). -/
theorem replaceWalk_append (opts : ReplaceOptions) (fail : FailSpec)
    (xs ys : List WalkEvent) (acc : RepAcc)
    (hok : ∀ n, WalkEvent.file n ∈ xs → exceptIsOk (matchesPattern n opts.pattern) = true) :
    replaceWalk opts fail acc (xs ++ ys)
      = replaceWalk opts fail (replaceWalk opts fail acc xs).1 ys ∧
    (replaceWalk opts fail acc xs).2 = none := by
  induction xs generalizing acc with
  | nil => exact ⟨rfl, rfl⟩
  | cons e rest ih =>
    obtain ⟨acc2, hstep⟩ := replaceStep_ok opts fail acc e
      (fun n hn => hok n (hn ▸ List.mem_cons_self _ _))
    have hc := replaceWalk_cons_ok hstep
    rw [List.cons_append, hc (rest ++ ys), hc rest]
    exact ih acc2 (fun n hn => hok n (List.mem_cons_of_mem _ hn))

/-- The modified list only grows during a walk. -/
theorem replaceWalk_modified_mono (opts : ReplaceOptions) (fail : FailSpec)
    (evs : List WalkEvent) (acc : RepAcc)
    (hok : ∀ n, WalkEvent.file n ∈ evs → exceptIsOk (matchesPattern n opts.pattern) = true) :
    ∃ ext, (replaceWalk opts fail acc evs).1.modifiedFiles
      = acc.modifiedFiles ++ ext := by
  induction evs generalizing acc with
  | nil => exact ⟨[], by simp [replaceWalk]⟩
  | cons e rest ih =>
    have hrest : ∀ n, WalkEvent.file n ∈ rest →
        exceptIsOk (matchesPattern n opts.pattern) = true :=
      fun n hn => hok n (List.mem_cons_of_mem _ hn)
    cases e with
    | access p =>
      unfold replaceWalk
      rw [replaceStep_access]
      exact ih _ hrest
    | file n =>
      have hn := hok n (List.mem_cons_self _ _)
      cases hmp : matchesPattern n opts.pattern with
      | error e2 =>
        rw [hmp] at hn
        simp [exceptIsOk] at hn
      | ok b =>
        cases b with
        | false =>
          unfold replaceWalk
          rw [replaceStep_file_notMatched _ _ _ _ hmp]
          exact ih _ hrest
        | true =>
          obtain ⟨acc2, hstep, -, hmod, -, -⟩ :=
            replaceStep_file_matched opts fail acc n hmp
          unfold replaceWalk
          rw [hstep]
          obtain ⟨ext, hext⟩ := ih acc2 hrest
          rcases hmod with h1 | h1
          · exact ⟨ext, by rw [hext, h1]⟩
          · exact ⟨[n] ++ ext, by rw [hext, h1, List.append_assoc]⟩

/-- Every path entering the modified list during a walk is the path of a
file event of that walk. -/
theorem replaceWalk_modified_sub (opts : ReplaceOptions) (fail : FailSpec)
    (evs : List WalkEvent) (acc : RepAcc)
    (hok : ∀ n, WalkEvent.file n ∈ evs → exceptIsOk (matchesPattern n opts.pattern) = true) :
    ∀ x, x ∈ (replaceWalk opts fail acc evs).1.modifiedFiles →
      x ∈ acc.modifiedFiles ∨ WalkEvent.file x ∈ evs := by
  induction evs generalizing acc with
  | nil =>
    intro x hx
    exact Or.inl hx
  | cons e rest ih =>
    have hrest : ∀ n, WalkEvent.file n ∈ rest →
        exceptIsOk (matchesPattern n opts.pattern) = true :=
      fun n hn => hok n (List.mem_cons_of_mem _ hn)
    intro x hx
    cases e with
    | access p =>
      unfold replaceWalk at hx
      rw [replaceStep_access] at hx
      rcases ih _ hrest x hx with h1 | h1
      · exact Or.inl h1
      · exact Or.inr (List.mem_cons_of_mem _ h1)
    | file n =>
      have hn := hok n (List.mem_cons_self _ _)
      cases hmp : matchesPattern n opts.pattern with
      | error e2 =>
        rw [hmp] at hn
        simp [exceptIsOk] at hn
      | ok b =>
        cases b with
        | false =>
          unfold replaceWalk at hx
          rw [replaceStep_file_notMatched _ _ _ _ hmp] at hx
          rcases ih _ hrest x hx with h1 | h1
          · exact Or.inl h1
          · exact Or.inr (List.mem_cons_of_mem _ h1)
        | true =>
          obtain ⟨acc2, hstep, -, hmod, -, -⟩ :=
            replaceStep_file_matched opts fail acc n hmp
          unfold replaceWalk at hx
          rw [hstep] at hx
          rcases ih _ hrest x hx with h1 | h1
          · rcases hmod with h2 | h2
            · rw [h2] at h1
              exact Or.inl h1
            · rw [h2] at h1
              rcases List.mem_append.mp h1 with h3 | h3
              · exact Or.inl h3
              · rcases List.mem_singleton.mp h3 with rfl
                exact Or.inr (List.mem_cons_self _ _)
          · exact Or.inr (List.mem_cons_of_mem _ h1)

/-- A walk does not disturb the directory entry of a path that is neither
a visited path nor the backup path of a matched visited path. -/
theorem replaceWalk_preserves_lookup (opts : ReplaceOptions) (fail : FailSpec)
    (evs : List WalkEvent) (acc : RepAcc) (tgt : List Char)
    (hok : ∀ n, WalkEvent.file n ∈ evs → exceptIsOk (matchesPattern n opts.pattern) = true)
    (hne : ∀ n, WalkEvent.file n ∈ evs → n ≠ tgt ∧
      (isMatched opts n = true → n ++ bakSuffix ≠ tgt)) :
    fsLookup (replaceWalk opts fail acc evs).1.fs tgt = fsLookup acc.fs tgt := by
  induction evs generalizing acc with
  | nil => rfl
  | cons e rest ih =>
    have hrest1 : ∀ n, WalkEvent.file n ∈ rest →
        exceptIsOk (matchesPattern n opts.pattern) = true :=
      fun n hn => hok n (List.mem_cons_of_mem _ hn)
    have hrest2 : ∀ n, WalkEvent.file n ∈ rest → n ≠ tgt ∧
        (isMatched opts n = true → n ++ bakSuffix ≠ tgt) :=
      fun n hn => hne n (List.mem_cons_of_mem _ hn)
    cases e with
    | access p =>
      unfold replaceWalk
      rw [replaceStep_access]
      exact ih _ hrest1 hrest2
    | file n =>
      have hn := hok n (List.mem_cons_self _ _)
      obtain ⟨hne1, hne2⟩ := hne n (List.mem_cons_self _ _)
      cases hmp : matchesPattern n opts.pattern with
      | error e2 =>
        rw [hmp] at hn
        simp [exceptIsOk] at hn
      | ok b =>
        cases b with
        | false =>
          unfold replaceWalk
          rw [replaceStep_file_notMatched _ _ _ _ hmp]
          exact ih _ hrest1 hrest2
        | true =>
          obtain ⟨acc2, hstep, -, -, hfs, -⟩ :=
            replaceStep_file_matched opts fail acc n hmp
          unfold replaceWalk
          rw [hstep]
          rw [ih _ hrest1 hrest2]
          exact hfs tgt (fun hh => hne1 hh.symm)
            (fun hh => hne2 (by simp [isMatched, hmp]) hh.symm)

/-- Exact behaviour of the read/replace/write phase at a present file,
when reading and writing do not fail. -/
theorem rwPhase_at (opts : ReplaceOptions) (fail : FailSpec) (acc2 : RepAcc)
    (n : List Char) (f : FsFile)
    (hrf : fail.readFails n = false) (hwf : fail.writeFails n = false)
    (hl : fsLookup acc2.fs n = some f) :
    (stringsContains f.content opts.oldText = true →
      rwPhase opts fail acc2 n
        = { acc2 with
              fs := fsWriteFile acc2.fs n
                (stringsReplaceAll f.content opts.oldText opts.newText) f.mode,
              modifiedFiles := acc2.modifiedFiles ++ [n] }) ∧
    (stringsContains f.content opts.oldText = false →
      rwPhase opts fail acc2 n = acc2) := by
  have h0 : (if fail.readFails n = true then none else fsLookup acc2.fs n) = some f := by
    rw [hrf]
    simp [hl]
  unfold rwPhase
  split
  · rename_i heq
    rw [h0] at heq
    cases heq
  · rename_i f2 heq
    rw [h0] at heq
    injection heq with heq
    subst heq
    constructor
    · intro hct
      rw [if_pos hct, if_neg (by simp [hwf])]
    · intro hct
      rw [if_neg (by simp [hct])]

/-- Exact behaviour of the backup phase at a present file when the backup
operation does not fail. -/
theorem backupPhase_at (opts : ReplaceOptions) (fail : FailSpec) (acc1 : RepAcc)
    (n : List Char) (f : FsFile)
    (hbf : fail.backupFails n = false)
    (hl : fsLookup acc1.fs n = some f) :
    backupPhase opts fail acc1 n
      = if opts.shouldBackup then
          { acc1 with fs := fsWriteFile acc1.fs (n ++ bakSuffix) f.content f.mode }
        else acc1 := by
  unfold backupPhase
  have hcb : createBackup fail acc1.fs n
      = some (fsWriteFile acc1.fs (n ++ bakSuffix) f.content f.mode) := by
    unfold createBackup
    rw [if_neg (by simp [hbf]), hl]
  by_cases hsb : opts.shouldBackup = true
  · rw [if_pos hsb, if_pos hsb, hcb]
  · rw [if_neg hsb, if_neg hsb]

/-- Exact behaviour of the backup phase when the backup operation fails:
the error is recorded (first one wins) and nothing else changes. -/
theorem backupPhase_at_fail (opts : ReplaceOptions) (fail : FailSpec) (acc1 : RepAcc)
    (n : List Char) (hsb : opts.shouldBackup = true) (hbf : fail.backupFails n = true) :
    backupPhase opts fail acc1 n
      = { acc1 with firstErr := noteErr acc1.firstErr (.backupError n) } := by
  unfold backupPhase
  rw [if_pos hsb]
  have hcb : createBackup fail acc1.fs n = none := by
    unfold createBackup
    rw [if_pos hbf]
  rw [hcb]

/-! ### Claim C7: a backup failure never blocks the replacement -/

/-- C7: when the backup of a matched file fails (and reading and writing
do not), the failure is recorded with first-one-wins semantics and the
processing of that same file continues: the file is still read and — its
content containing the search text — still rewritten with the replacement
applied, appended to the modified list, and counted as processed. -/
theorem c7_backup_failure_never_blocks (opts : ReplaceOptions) (fail : FailSpec)
    (acc : RepAcc) (n : List Char) (f : FsFile)
    (hsb : opts.shouldBackup = true)
    (hbf : fail.backupFails n = true)
    (hrf : fail.readFails n = false) (hwf : fail.writeFails n = false)
    (hmp : matchesPattern n opts.pattern = .ok true)
    (hl : fsLookup acc.fs n = some f)
    (hct : stringsContains f.content opts.oldText = true) :
    replaceStep opts fail acc (.file n)
      = .ok { modifiedFiles := acc.modifiedFiles ++ [n],
              filesProcessed := acc.filesProcessed + 1,
              firstErr := noteErr acc.firstErr (.backupError n),
              fs := fsWriteFile acc.fs n
                (stringsReplaceAll f.content opts.oldText opts.newText) f.mode } := by
  have hstep : replaceStep opts fail acc (.file n)
      = .ok (rwPhase opts fail
          (backupPhase opts fail { acc with filesProcessed := acc.filesProcessed + 1 } n)
          n) := by
    simp only [replaceStep, hmp]
  rw [hstep]
  rw [backupPhase_at_fail opts fail _ n hsb hbf]
  have hl2 : fsLookup (RepAcc.mk acc.modifiedFiles (acc.filesProcessed + 1) (noteErr acc.firstErr (.backupError n)) acc.fs).fs n = some f := hl
  obtain ⟨hcase, -⟩ := rwPhase_at opts fail _ n f hrf hwf hl2
  rw [hcase hct]

/-- Witness for C7: file `"a"` (content `"x"`), backup fails for `"a"`,
search `"x"`, replacement `"y"`. -/
theorem c7_backup_failure_never_blocks_witness :
    replaceStep ⟨['*'], ['x'], ['y'], true⟩
      ⟨fun p => p == ['a'], fun _ => false, fun _ => false, fun _ => false, fun _ => false⟩
      ⟨[], 0, none, ([⟨['a'], ['x'], 420⟩] : Fs)⟩ (.file ['a'])
      = .ok { modifiedFiles := [] ++ [['a']],
              filesProcessed := 0 + 1,
              firstErr := noteErr none (.backupError ['a']),
              fs := fsWriteFile ([⟨['a'], ['x'], 420⟩] : Fs) ['a']
                (stringsReplaceAll ['x'] ['x'] ['y']) 420 } :=
  c7_backup_failure_never_blocks ⟨['*'], ['x'], ['y'], true⟩
    ⟨fun p => p == ['a'], fun _ => false, fun _ => false, fun _ => false, fun _ => false⟩
    ⟨[], 0, none, ([⟨['a'], ['x'], 420⟩] : Fs)⟩ ['a'] ⟨['a'], ['x'], 420⟩
    rfl rfl rfl rfl (by decide) (by decide) (by decide)

/-! ### Claim C5: per-file replacement semantics -/

/-- C5 counterexample: with backup enabled, the visit of `"a"` first
copies its content over the pre-existing `"a.bak"`; when `"a.bak"` is
itself visited it is read *after* that overwrite, so although its
original content `"z"` does not contain the search text, the file is
rewritten and reported as modified — the claim's "left untouched and not
added to affectedPaths" fails. -/
theorem c5_per_file_counterexample :
    stringsContains ['z'] ['x'] = false ∧
    isMatched ⟨['*'], ['x'], ['y'], true⟩ ['a', '.', 'b', 'a', 'k'] = true ∧
    (performReplacement ⟨['*'], ['x'], ['y'], true⟩ noFail
        ([⟨['a'], ['x'], 420⟩, ⟨['a', '.', 'b', 'a', 'k'], ['z'], 420⟩] : Fs)).modifiedFiles
      = [['a'], ['a', '.', 'b', 'a', 'k']] ∧
    fsLookup (performReplacement ⟨['*'], ['x'], ['y'], true⟩ noFail
        ([⟨['a'], ['x'], 420⟩, ⟨['a', '.', 'b', 'a', 'k'], ['z'], 420⟩] : Fs)).fs
        ['a', '.', 'b', 'a', 'k']
      = some ⟨['a', '.', 'b', 'a', 'k'], ['y'], 420⟩ := by
  decide

/-- C5 (amended): in a failure-free run on a directory with unique names
in which no file is the backup path of a matched file (so that the backup
of one visited file cannot clobber another), each matched file is handled
according to its original content: if it contains the search text it ends
with exactly the global replacement written under its original mode and
its path in the modified list; otherwise it is left untouched and is not
reported. -/
theorem c5_per_file_replacement_semantics (opts : ReplaceOptions) (fs : Fs) (f : FsFile)
    (hu : fsUnique fs) (hnbc : noBakCollision opts fs)
    (hok : ∀ g ∈ fs, exceptIsOk (matchesPattern g.name opts.pattern) = true)
    (hold : opts.oldText ≠ [])
    (hf : f ∈ fs) (hm : isMatched opts f.name = true) :
    (stringsContains f.content opts.oldText = true →
      fsLookup (performReplacement opts noFail fs).fs f.name
        = some ⟨f.name, stringsReplaceAll f.content opts.oldText opts.newText, f.mode⟩ ∧
      f.name ∈ (performReplacement opts noFail fs).modifiedFiles) ∧
    (stringsContains f.content opts.oldText = false →
      fsLookup (performReplacement opts noFail fs).fs f.name = some f ∧
      f.name ∉ (performReplacement opts noFail fs).modifiedFiles) := by
  have hmp : matchesPattern f.name opts.pattern = .ok true := by
    cases h : matchesPattern f.name opts.pattern with
    | error e => simp [isMatched, h] at hm
    | ok b =>
      cases b with
      | false => simp [isMatched, h] at hm
      | true => rfl
  unfold performReplacement
  rw [if_neg (by simp [List.isEmpty_iff, hold])]
  have hev : WalkEvent.file f.name ∈ walkOf fs := by
    unfold walkOf
    exact List.mem_map.mpr ⟨f, mem_sortFs.mpr hf, rfl⟩
  obtain ⟨pre, post, hsplit⟩ := List.append_of_mem hev
  have hnodup : (eventNames (walkOf fs)).Nodup := by
    rw [eventNames_walkOf]
    exact fsNames_sortFs_nodup hu
  rw [hsplit] at hnodup
  have hnames2 : eventNames (pre ++ WalkEvent.file f.name :: post)
      = eventNames pre ++ f.name :: eventNames post := by
    unfold eventNames
    rw [List.map_append, List.map_cons]
    rfl
  rw [hnames2] at hnodup
  have hmid := List.nodup_middle.mp hnodup
  have hnotin : f.name ∉ eventNames pre ++ eventNames post := (List.nodup_cons.mp hmid).1
  have hnotpre : f.name ∉ eventNames pre :=
    fun h => hnotin (List.mem_append.mpr (Or.inl h))
  have hnotpost : f.name ∉ eventNames post :=
    fun h => hnotin (List.mem_append.mpr (Or.inr h))
  have hmemfs : ∀ n, WalkEvent.file n ∈ walkOf fs → ∃ g ∈ fs, g.name = n := by
    intro n hn
    exact mem_eventNames_walkOf.mp (by
      unfold eventNames
      exact List.mem_map.mpr ⟨_, hn, rfl⟩)
  have hokW : ∀ n, WalkEvent.file n ∈ walkOf fs →
      exceptIsOk (matchesPattern n opts.pattern) = true := by
    intro n hn
    obtain ⟨g, hg, hgn⟩ := hmemfs n hn
    subst hgn
    exact hok g hg
  have hokpre : ∀ n, WalkEvent.file n ∈ pre →
      exceptIsOk (matchesPattern n opts.pattern) = true := by
    intro n hn
    exact hokW n (by rw [hsplit]; exact List.mem_append_left _ hn)
  have hokpost : ∀ n, WalkEvent.file n ∈ post →
      exceptIsOk (matchesPattern n opts.pattern) = true := by
    intro n hn
    exact hokW n (by
      rw [hsplit]
      exact List.mem_append_right _ (List.mem_cons_of_mem _ hn))
  have hnepre : ∀ n, WalkEvent.file n ∈ pre → n ≠ f.name ∧
      (isMatched opts n = true → n ++ bakSuffix ≠ f.name) := by
    intro n hn
    refine ⟨?_, ?_⟩
    · intro hcon
      subst hcon
      exact hnotpre (by
        unfold eventNames
        exact List.mem_map.mpr ⟨_, hn, rfl⟩)
    · intro hmn hcon
      obtain ⟨g, hg, hgn⟩ := hmemfs n (by rw [hsplit]; exact List.mem_append_left _ hn)
      subst hgn
      exact hnbc f hf g hg hmn hcon.symm
  have hnepost : ∀ n, WalkEvent.file n ∈ post → n ≠ f.name ∧
      (isMatched opts n = true → n ++ bakSuffix ≠ f.name) := by
    intro n hn
    refine ⟨?_, ?_⟩
    · intro hcon
      subst hcon
      exact hnotpost (by
        unfold eventNames
        exact List.mem_map.mpr ⟨_, hn, rfl⟩)
    · intro hmn hcon
      obtain ⟨g, hg, hgn⟩ := hmemfs n (by
        rw [hsplit]
        exact List.mem_append_right _ (List.mem_cons_of_mem _ hn))
      subst hgn
      exact hnbc f hf g hg hmn hcon.symm
  rw [hsplit]
  obtain ⟨happ1, -⟩ := replaceWalk_append opts noFail pre (WalkEvent.file f.name :: post)
    ⟨[], 0, none, fs⟩ hokpre
  rw [happ1]
  have hlpre : fsLookup (replaceWalk opts noFail ⟨[], 0, none, fs⟩ pre).1.fs f.name
      = some f := by
    rw [replaceWalk_preserves_lookup opts noFail pre _ f.name hokpre hnepre]
    exact fsLookup_of_mem_unique hu hf
  have hstep : replaceStep opts noFail (replaceWalk opts noFail ⟨[], 0, none, fs⟩ pre).1
      (.file f.name)
      = .ok (rwPhase opts noFail
          (backupPhase opts noFail
            { (replaceWalk opts noFail ⟨[], 0, none, fs⟩ pre).1 with
                filesProcessed :=
                  (replaceWalk opts noFail ⟨[], 0, none, fs⟩ pre).1.filesProcessed + 1 }
            f.name)
          f.name) := by
    simp only [replaceStep, hmp]
  rw [replaceWalk_cons_ok hstep post]
  obtain ⟨b1, b2, b3, b4⟩ := backupPhase_shape opts noFail
    { (replaceWalk opts noFail ⟨[], 0, none, fs⟩ pre).1 with
        filesProcessed := (replaceWalk opts noFail ⟨[], 0, none, fs⟩ pre).1.filesProcessed + 1 }
    f.name
  have hl2 : fsLookup (backupPhase opts noFail
      { (replaceWalk opts noFail ⟨[], 0, none, fs⟩ pre).1 with
          filesProcessed :=
            (replaceWalk opts noFail ⟨[], 0, none, fs⟩ pre).1.filesProcessed + 1 }
      f.name).fs f.name = some f := by
    rw [b3 f.name (self_ne_append_bak f.name)]
    exact hlpre
  obtain ⟨hcaseT, hcaseF⟩ := rwPhase_at opts noFail _ f.name f rfl rfl hl2
  constructor
  · intro hct
    rw [hcaseT hct]
    constructor
    · rw [repFinish_fs]
      rw [replaceWalk_preserves_lookup opts noFail post _ f.name hokpost hnepost]
      show fsLookup (fsWriteFile _ f.name
        (stringsReplaceAll f.content opts.oldText opts.newText) f.mode) f.name = _
      rw [fsLookup_writeFile_self_some _ _ hl2]
    · rw [repFinish_modifiedFiles]
      obtain ⟨ext, hext⟩ := replaceWalk_modified_mono opts noFail post _ hokpost
      rw [hext]
      show f.name ∈ (backupPhase opts noFail _ f.name).modifiedFiles ++ [f.name] ++ ext
      exact List.mem_append_left _ (List.mem_append_right _ (List.mem_singleton.mpr rfl))
  · intro hct
    rw [hcaseF hct]
    constructor
    · rw [repFinish_fs]
      rw [replaceWalk_preserves_lookup opts noFail post _ f.name hokpost hnepost]
      exact hl2
    · rw [repFinish_modifiedFiles]
      intro hmem
      rcases replaceWalk_modified_sub opts noFail post _ hokpost f.name hmem with h1 | h1
      · rw [b2] at h1
        rcases replaceWalk_modified_sub opts noFail pre _ hokpre f.name h1 with h2 | h2
        · cases h2
        · exact hnotpre (by
            unfold eventNames
            exact List.mem_map.mpr ⟨_, h2, rfl⟩)
      · exact hnotpost (by
          unfold eventNames
          exact List.mem_map.mpr ⟨_, h1, rfl⟩)

/-- Witness for the amended C5: matching file `"a"` with content
containing the search text, and matching file `"b"` whose content does
not. -/
theorem c5_per_file_replacement_semantics_witness :
    (stringsContains ['x'] ['x'] = true →
      fsLookup (performReplacement ⟨['*'], ['x'], ['y'], true⟩ noFail
          ([⟨['a'], ['x'], 420⟩, ⟨['b'], ['z'], 420⟩] : Fs)).fs ['a']
        = some ⟨['a'], stringsReplaceAll ['x'] ['x'] ['y'], 420⟩ ∧
      ['a'] ∈ (performReplacement ⟨['*'], ['x'], ['y'], true⟩ noFail
          ([⟨['a'], ['x'], 420⟩, ⟨['b'], ['z'], 420⟩] : Fs)).modifiedFiles) ∧
    (stringsContains ['x'] ['x'] = false →
      fsLookup (performReplacement ⟨['*'], ['x'], ['y'], true⟩ noFail
          ([⟨['a'], ['x'], 420⟩, ⟨['b'], ['z'], 420⟩] : Fs)).fs ['a']
        = some ⟨['a'], ['x'], 420⟩ ∧
      ['a'] ∉ (performReplacement ⟨['*'], ['x'], ['y'], true⟩ noFail
          ([⟨['a'], ['x'], 420⟩, ⟨['b'], ['z'], 420⟩] : Fs)).modifiedFiles) :=
  c5_per_file_replacement_semantics ⟨['*'], ['x'], ['y'], true⟩
    ([⟨['a'], ['x'], 420⟩, ⟨['b'], ['z'], 420⟩] : Fs) ⟨['a'], ['x'], 420⟩
    (by decide) (by decide) (by decide) (by decide) (by decide) (by decide)

/-! ### `.bak` name arithmetic and rename lookups -/

theorem endsWithBak_append (x : List Char) : endsWithBak (x ++ bakSuffix) = true := by
  unfold endsWithBak stringsHasSuffix
  rw [List.isSuffixOf_iff_suffix]
  exact List.suffix_append x bakSuffix

theorem trimBak_append (x : List Char) : trimBak (x ++ bakSuffix) = x := by
  unfold trimBak stringsTrimSuffix
  have hs : stringsHasSuffix (x ++ bakSuffix) bakSuffix = true := endsWithBak_append x
  rw [hs]
  simp only [if_pos, List.length_append]
  have h4 : bakSuffix.length = 4 := rfl
  rw [h4]
  have : x.length + 4 - 4 = x.length := by omega
  rw [this]
  exact List.take_left x bakSuffix

theorem trimBak_spec {n : List Char} (h : endsWithBak n = true) :
    n = trimBak n ++ bakSuffix := by
  unfold endsWithBak stringsHasSuffix at h
  rw [List.isSuffixOf_iff_suffix] at h
  obtain ⟨t, ht⟩ := h
  subst ht
  rw [trimBak_append]

theorem bak_right_cancel {x y : List Char} (h : x ++ bakSuffix = y ++ bakSuffix) :
    x = y := by
  have := congrArg trimBak h
  rwa [trimBak_append, trimBak_append] at this

theorem fsLookup_none_of_forall {fs : Fs} {tgt : List Char}
    (h : ∀ g ∈ fs, g.name ≠ tgt) : fsLookup fs tgt = none := by
  unfold fsLookup
  rw [List.find?_eq_none]
  intro g hg
  simp only [beq_eq_false_iff_ne, ne_eq, Bool.not_eq_true]
  exact fun hc => h g hg (by simpa using hc)

theorem fsLookup_rename_ne {fs fs2 : Fs} {src dst tgt : List Char}
    (h : fsRename fs src dst = some fs2) (h1 : tgt ≠ src) (h2 : tgt ≠ dst) :
    fsLookup fs2 tgt = fsLookup fs tgt := by
  unfold fsRename at h
  cases hl : fsLookup fs src with
  | none => rw [hl] at h; cases h
  | some f =>
    rw [hl] at h
    injection h with h
    subst h
    rw [fsLookup_append]
    rw [fsLookup_erase_ne _ (fun hh => h2 hh.symm), fsLookup_erase_ne _ (fun hh => h1 hh.symm)]
    cases h3 : fsLookup fs tgt with
    | some g => rfl
    | none =>
      simp only
      rw [fsLookup_cons, if_neg (fun hh => h2 hh.symm)]
      rfl

theorem fsLookup_rename_dst {fs fs2 : Fs} {src dst : List Char}
    (h : fsRename fs src dst = some fs2) :
    ∃ f, fsLookup fs src = some f ∧ fsLookup fs2 dst = some ⟨dst, f.content, f.mode⟩ := by
  unfold fsRename at h
  cases hl : fsLookup fs src with
  | none => rw [hl] at h; cases h
  | some f =>
    rw [hl] at h
    injection h with h
    subst h
    refine ⟨f, rfl, ?_⟩
    rw [fsLookup_append, fsLookup_erase_self]
    simp only
    rw [fsLookup_cons, if_pos rfl]

theorem fsRename_isSome {fs : Fs} {src dst : List Char} {f : FsFile}
    (hl : fsLookup fs src = some f) :
    fsRename fs src dst
      = some (fsErase (fsErase fs src) dst ++ [⟨dst, f.content, f.mode⟩]) := by
  unfold fsRename
  rw [hl]

/-! ### Restore-walk lemmas -/

theorem restoreStep_access (fail : FailSpec) (acc : RrAcc) (p : List Char) :
    restoreStep fail acc (.access p)
      = { acc with firstErr := noteErr acc.firstErr (.accessError p) } := rfl

theorem restoreStep_nonbak (fail : FailSpec) (acc : RrAcc) (n : List Char)
    (h : endsWithBak n = false) : restoreStep fail acc (.file n) = acc := by
  simp only [restoreStep]
  rw [h]
  rfl

theorem restoreStep_at (fail : FailSpec) (acc : RrAcc) (n : List Char) (f : FsFile)
    (hb : endsWithBak n = true) (hrn : fail.renameFails n = false)
    (hl : fsLookup acc.fs n = some f) :
    restoreStep fail acc (.file n)
      = { acc with
            fs := fsErase (fsErase acc.fs n) (trimBak n) ++ [⟨trimBak n, f.content, f.mode⟩],
            actedPaths := acc.actedPaths ++ [trimBak n],
            count := acc.count + 1 } := by
  simp only [restoreStep]
  rw [hb]
  simp only [Bool.not_true, Bool.false_eq_true, if_false]
  rw [hrn]
  simp only [Bool.false_eq_true, if_false]
  rw [fsRename_isSome hl]

theorem restoreWalk_cons (fail : FailSpec) (acc : RrAcc) (e : WalkEvent)
    (rest : List WalkEvent) :
    restoreWalk fail acc (e :: rest) = restoreWalk fail (restoreStep fail acc e) rest := rfl

/-- A restore walk does not disturb the entry of a path that is neither a
visited `.bak` path nor the restore target of a visited `.bak` path. -/
theorem restoreWalk_preserves_lookup (fail : FailSpec) (evs : List WalkEvent)
    (acc : RrAcc) (tgt : List Char)
    (hne : ∀ n, WalkEvent.file n ∈ evs → endsWithBak n = true →
      n ≠ tgt ∧ trimBak n ≠ tgt) :
    fsLookup (restoreWalk fail acc evs).fs tgt = fsLookup acc.fs tgt := by
  induction evs generalizing acc with
  | nil => rfl
  | cons e rest ih =>
    have hrest : ∀ n, WalkEvent.file n ∈ rest → endsWithBak n = true →
        n ≠ tgt ∧ trimBak n ≠ tgt :=
      fun n hn => hne n (List.mem_cons_of_mem _ hn)
    rw [restoreWalk_cons]
    rw [ih _ hrest]
    cases e with
    | access p => rfl
    | file n =>
      by_cases hb : endsWithBak n = true
      · obtain ⟨h1, h2⟩ := hne n (List.mem_cons_self _ _) hb
        simp only [restoreStep]
        rw [hb]
        simp only [Bool.not_true, Bool.false_eq_true, if_false]
        cases hr : (if fail.renameFails n = true then none else fsRename acc.fs n (trimBak n)) with
        | none => rfl
        | some fs2 =>
          simp only
          by_cases hrn : fail.renameFails n = true
          · rw [if_pos hrn] at hr
            cases hr
          · rw [if_neg hrn] at hr
            exact fsLookup_rename_ne hr (fun hh => h1 hh.symm) (fun hh => h2 hh.symm)
      · rw [restoreStep_nonbak _ _ _ (Bool.not_eq_true _ |>.mp hb)]

theorem restoreWalk_append (fail : FailSpec) (xs ys : List WalkEvent) (acc : RrAcc) :
    restoreWalk fail acc (xs ++ ys) = restoreWalk fail (restoreWalk fail acc xs) ys := by
  induction xs generalizing acc with
  | nil => rfl
  | cons e rest ih =>
    rw [List.cons_append, restoreWalk_cons, restoreWalk_cons]
    exact ih _

/-! ### Uniqueness is preserved by the replacement walk -/

theorem fsWriteFile_unique {fs : Fs} (hu : fsUnique fs) (n c : List Char) (m : Nat) :
    fsUnique (fsWriteFile fs n c m) := by
  unfold fsWriteFile
  cases hl : fsLookup fs n with
  | some f =>
    unfold fsUnique fsNames at hu ⊢
    have hmap : (fs.map
        (fun f => if f.name == n then { f with content := c } else f)).map FsFile.name
        = fs.map FsFile.name := by
      rw [List.map_map]
      refine List.map_congr_left ?_
      intro g hg
      by_cases h2 : (g.name == n) = true
      · simp [Function.comp, h2]
      · simp [Function.comp, h2]
    rw [hmap]
    exact hu
  | none =>
    unfold fsUnique fsNames at hu ⊢
    rw [List.map_append]
    have hn : n ∉ fs.map FsFile.name := by
      intro hmem
      obtain ⟨g, hg, hgn⟩ := List.mem_map.mp hmem
      have hne := fsLookup_ne_none_of_mem hg
      rw [hgn] at hne
      exact hne hl
    refine List.Nodup.append hu (List.nodup_singleton n) ?_
    intro a ha hb
    rcases List.mem_singleton.mp hb with rfl
    exact hn ha

theorem backupPhase_unique (opts : ReplaceOptions) (fail : FailSpec) (acc1 : RepAcc)
    (n : List Char) (hu : fsUnique acc1.fs) :
    fsUnique (backupPhase opts fail acc1 n).fs := by
  unfold backupPhase
  by_cases hsb : opts.shouldBackup = true
  · rw [if_pos hsb]
    cases hcb : createBackup fail acc1.fs n with
    | none => exact hu
    | some fs2 =>
      unfold createBackup at hcb
      by_cases hbf : fail.backupFails n = true
      · rw [if_pos hbf] at hcb
        cases hcb
      · rw [if_neg hbf] at hcb
        cases hlk : fsLookup acc1.fs n with
        | none => rw [hlk] at hcb; cases hcb
        | some f =>
          rw [hlk] at hcb
          injection hcb with hcb
          subst hcb
          exact fsWriteFile_unique hu _ _ _
  · rw [if_neg hsb]
    exact hu

theorem rwPhase_unique (opts : ReplaceOptions) (fail : FailSpec) (acc2 : RepAcc)
    (n : List Char) (hu : fsUnique acc2.fs) :
    fsUnique (rwPhase opts fail acc2 n).fs := by
  unfold rwPhase
  split
  · exact hu
  · rename_i f hrd
    by_cases hct : stringsContains f.content opts.oldText = true
    · rw [if_pos hct]
      by_cases hwf : fail.writeFails n = true
      · rw [if_pos hwf]
        exact hu
      · rw [if_neg hwf]
        exact fsWriteFile_unique hu _ _ _
    · rw [if_neg hct]
      exact hu

theorem replaceWalk_unique (opts : ReplaceOptions) (fail : FailSpec)
    (evs : List WalkEvent) (acc : RepAcc)
    (hok : ∀ n, WalkEvent.file n ∈ evs → exceptIsOk (matchesPattern n opts.pattern) = true)
    (hu : fsUnique acc.fs) :
    fsUnique (replaceWalk opts fail acc evs).1.fs := by
  induction evs generalizing acc with
  | nil => exact hu
  | cons e rest ih =>
    have hrest : ∀ n, WalkEvent.file n ∈ rest →
        exceptIsOk (matchesPattern n opts.pattern) = true :=
      fun n hn => hok n (List.mem_cons_of_mem _ hn)
    cases e with
    | access p =>
      rw [replaceWalk_cons_ok (replaceStep_access opts fail acc p)]
      exact ih _ hrest hu
    | file n =>
      have hn := hok n (List.mem_cons_self _ _)
      cases hmp : matchesPattern n opts.pattern with
      | error e2 =>
        rw [hmp] at hn
        simp [exceptIsOk] at hn
      | ok b =>
        cases b with
        | false =>
          rw [replaceWalk_cons_ok (replaceStep_file_notMatched _ _ _ _ hmp)]
          exact ih _ hrest hu
        | true =>
          have hstep : replaceStep opts fail acc (.file n)
              = .ok (rwPhase opts fail
                  (backupPhase opts fail
                    { acc with filesProcessed := acc.filesProcessed + 1 } n) n) := by
            simp only [replaceStep, hmp]
          rw [replaceWalk_cons_ok hstep]
          exact ih _ hrest (rwPhase_unique _ _ _ _ (backupPhase_unique _ _ _ _ hu))

/-! ### Strict order across a sorted split -/

theorem sorted_split_strict {fs2 : Fs} (hu : fsUnique fs2) {P Q : Fs} {b : FsFile}
    (hsp : sortFs fs2 = P ++ b :: Q) :
    (∀ p ∈ P, nameLt p.name b.name = true) ∧
    (∀ q ∈ Q, nameLt b.name q.name = true) := by
  have hs : List.Pairwise fsLe (P ++ b :: Q) := by
    have := sortFs_sorted fs2
    rwa [hsp] at this
  have hnd : (fsNames (P ++ b :: Q)).Nodup := by
    have := fsNames_sortFs_nodup hu
    rwa [hsp] at this
  unfold fsNames at hnd
  rw [List.map_append, List.map_cons] at hnd
  have hmid := List.nodup_middle.mp hnd
  have hbnotin : b.name ∉ P.map FsFile.name ++ Q.map FsFile.name :=
    (List.nodup_cons.mp hmid).1
  obtain ⟨hP, hBQ, hcross⟩ := List.pairwise_append.mp hs
  constructor
  · intro p hp
    have hle : fsLe p b := hcross p hp b (List.mem_cons_self _ _)
    unfold fsLe at hle
    by_cases hlt : nameLt p.name b.name = true
    · exact hlt
    · exfalso
      have heq := nameLt_conn (Bool.not_eq_true _ |>.mp hlt) hle
      exact hbnotin (List.mem_append.mpr (Or.inl
        (heq ▸ List.mem_map.mpr ⟨p, hp, rfl⟩)))
  · intro q hq
    have hle : fsLe b q := (List.pairwise_cons.mp hBQ).1 q hq
    unfold fsLe at hle
    by_cases hlt : nameLt b.name q.name = true
    · exact hlt
    · exfalso
      have heq := nameLt_conn (Bool.not_eq_true _ |>.mp hlt) hle
      exact hbnotin (List.mem_append.mpr (Or.inr
        (by rw [heq]; exact List.mem_map.mpr ⟨q, hq, rfl⟩)))

/-! ### Claim C1: backup/restore round trip -/

theorem file_mem_walkOf {fs : Fs} {n : List Char} (hn : WalkEvent.file n ∈ walkOf fs) :
    ∃ g ∈ fs, g.name = n := by
  apply mem_eventNames_walkOf.mp
  unfold eventNames
  exact List.mem_map.mpr ⟨_, hn, rfl⟩

theorem performReplacement_unique (opts : ReplaceOptions) (fs : Fs)
    (hu : fsUnique fs)
    (hok : ∀ g ∈ fs, exceptIsOk (matchesPattern g.name opts.pattern) = true) :
    fsUnique (performReplacement opts noFail fs).fs := by
  unfold performReplacement
  by_cases he : opts.oldText.isEmpty = true
  · rw [if_pos he]
    exact hu
  · rw [if_neg he]
    rw [repFinish_fs]
    refine replaceWalk_unique opts noFail (walkOf fs) _ ?_ hu
    intro n hn
    obtain ⟨g, hg, hgn⟩ := file_mem_walkOf hn
    subst hgn
    exact hok g hg

/-- After a failure-free backup-enabled run on a hygienic directory, the
backup path of each matched file holds exactly the file's original content
under its original mode. -/
theorem replace_backup_entry (opts : ReplaceOptions) (fs : Fs) (f : FsFile)
    (hu : fsUnique fs) (hnbc : noBakCollision opts fs)
    (hok : ∀ g ∈ fs, exceptIsOk (matchesPattern g.name opts.pattern) = true)
    (hold : opts.oldText ≠ []) (hsb : opts.shouldBackup = true)
    (hf : f ∈ fs) (hm : isMatched opts f.name = true) :
    fsLookup (performReplacement opts noFail fs).fs (f.name ++ bakSuffix)
      = some ⟨f.name ++ bakSuffix, f.content, f.mode⟩ := by
  have hmp : matchesPattern f.name opts.pattern = .ok true := by
    cases h : matchesPattern f.name opts.pattern with
    | error e => simp [isMatched, h] at hm
    | ok b =>
      cases b with
      | false => simp [isMatched, h] at hm
      | true => rfl
  unfold performReplacement
  rw [if_neg (by simp [List.isEmpty_iff, hold])]
  have hev : WalkEvent.file f.name ∈ walkOf fs := by
    unfold walkOf
    exact List.mem_map.mpr ⟨f, mem_sortFs.mpr hf, rfl⟩
  obtain ⟨pre, post, hsplit⟩ := List.append_of_mem hev
  have hnodup : (eventNames (walkOf fs)).Nodup := by
    rw [eventNames_walkOf]
    exact fsNames_sortFs_nodup hu
  rw [hsplit] at hnodup
  have hnames2 : eventNames (pre ++ WalkEvent.file f.name :: post)
      = eventNames pre ++ f.name :: eventNames post := by
    unfold eventNames
    rw [List.map_append, List.map_cons]
    rfl
  rw [hnames2] at hnodup
  have hmid := List.nodup_middle.mp hnodup
  have hnotin : f.name ∉ eventNames pre ++ eventNames post := (List.nodup_cons.mp hmid).1
  have hnotpre : f.name ∉ eventNames pre :=
    fun h => hnotin (List.mem_append.mpr (Or.inl h))
  have hnotpost : f.name ∉ eventNames post :=
    fun h => hnotin (List.mem_append.mpr (Or.inr h))
  have hokpre : ∀ n, WalkEvent.file n ∈ pre →
      exceptIsOk (matchesPattern n opts.pattern) = true := by
    intro n hn
    obtain ⟨g, hg, hgn⟩ := @file_mem_walkOf fs _
      (by rw [hsplit]; exact List.mem_append_left _ hn)
    subst hgn
    exact hok g hg
  have hokpost : ∀ n, WalkEvent.file n ∈ post →
      exceptIsOk (matchesPattern n opts.pattern) = true := by
    intro n hn
    obtain ⟨g, hg, hgn⟩ := @file_mem_walkOf fs _ (by
      rw [hsplit]
      exact List.mem_append_right _ (List.mem_cons_of_mem _ hn))
    subst hgn
    exact hok g hg
  have hneprename : ∀ n, WalkEvent.file n ∈ pre → n ≠ f.name ∧
      (isMatched opts n = true → n ++ bakSuffix ≠ f.name) := by
    intro n hn
    refine ⟨?_, ?_⟩
    · intro hcon
      subst hcon
      exact hnotpre (by
        unfold eventNames
        exact List.mem_map.mpr ⟨_, hn, rfl⟩)
    · intro hmn hcon
      obtain ⟨g, hg, hgn⟩ := @file_mem_walkOf fs _
        (by rw [hsplit]; exact List.mem_append_left _ hn)
      subst hgn
      exact hnbc f hf g hg hmn hcon.symm
  have hneprebak : ∀ n, WalkEvent.file n ∈ pre → n ≠ f.name ++ bakSuffix ∧
      (isMatched opts n = true → n ++ bakSuffix ≠ f.name ++ bakSuffix) := by
    intro n hn
    obtain ⟨g, hg, hgn⟩ := @file_mem_walkOf fs _
      (by rw [hsplit]; exact List.mem_append_left _ hn)
    refine ⟨?_, ?_⟩
    · subst hgn
      exact hnbc g hg f hf hm
    · intro hmn hcon
      have hnf : n = f.name := bak_right_cancel hcon
      subst hnf
      exact hnotpre (by
        unfold eventNames
        exact List.mem_map.mpr ⟨_, hn, rfl⟩)
  have hnepostbak : ∀ n, WalkEvent.file n ∈ post → n ≠ f.name ++ bakSuffix ∧
      (isMatched opts n = true → n ++ bakSuffix ≠ f.name ++ bakSuffix) := by
    intro n hn
    obtain ⟨g, hg, hgn⟩ := @file_mem_walkOf fs _ (by
      rw [hsplit]
      exact List.mem_append_right _ (List.mem_cons_of_mem _ hn))
    refine ⟨?_, ?_⟩
    · subst hgn
      exact hnbc g hg f hf hm
    · intro hmn hcon
      have hnf : n = f.name := bak_right_cancel hcon
      subst hnf
      exact hnotpost (by
        unfold eventNames
        exact List.mem_map.mpr ⟨_, hn, rfl⟩)
  have hbaknone : fsLookup fs (f.name ++ bakSuffix) = none := by
    apply fsLookup_none_of_forall
    intro g hg
    exact hnbc g hg f hf hm
  rw [hsplit]
  obtain ⟨happ1, -⟩ := replaceWalk_append opts noFail pre (WalkEvent.file f.name :: post)
    ⟨[], 0, none, fs⟩ hokpre
  rw [happ1]
  have hlpre : fsLookup (replaceWalk opts noFail ⟨[], 0, none, fs⟩ pre).1.fs f.name
      = some f := by
    rw [replaceWalk_preserves_lookup opts noFail pre _ f.name hokpre hneprename]
    exact fsLookup_of_mem_unique hu hf
  have hlprebak : fsLookup (replaceWalk opts noFail ⟨[], 0, none, fs⟩ pre).1.fs
      (f.name ++ bakSuffix) = none := by
    rw [replaceWalk_preserves_lookup opts noFail pre _ (f.name ++ bakSuffix) hokpre hneprebak]
    exact hbaknone
  have hstep : replaceStep opts noFail (replaceWalk opts noFail ⟨[], 0, none, fs⟩ pre).1
      (.file f.name)
      = .ok (rwPhase opts noFail
          (backupPhase opts noFail
            { (replaceWalk opts noFail ⟨[], 0, none, fs⟩ pre).1 with
                filesProcessed :=
                  (replaceWalk opts noFail ⟨[], 0, none, fs⟩ pre).1.filesProcessed + 1 }
            f.name)
          f.name) := by
    simp only [replaceStep, hmp]
  rw [replaceWalk_cons_ok hstep post]
  have hl1 : fsLookup ({ (replaceWalk opts noFail ⟨[], 0, none, fs⟩ pre).1 with
      filesProcessed :=
        (replaceWalk opts noFail ⟨[], 0, none, fs⟩ pre).1.filesProcessed + 1 } : RepAcc).fs
      f.name = some f := hlpre
  have hbp := backupPhase_at opts noFail
    { (replaceWalk opts noFail ⟨[], 0, none, fs⟩ pre).1 with
        filesProcessed :=
          (replaceWalk opts noFail ⟨[], 0, none, fs⟩ pre).1.filesProcessed + 1 }
    f.name f rfl hl1
  rw [if_pos hsb] at hbp
  have hlbak2 : fsLookup (backupPhase opts noFail
      { (replaceWalk opts noFail ⟨[], 0, none, fs⟩ pre).1 with
          filesProcessed :=
            (replaceWalk opts noFail ⟨[], 0, none, fs⟩ pre).1.filesProcessed + 1 }
      f.name).fs (f.name ++ bakSuffix)
      = some ⟨f.name ++ bakSuffix, f.content, f.mode⟩ := by
    rw [hbp]
    exact fsLookup_writeFile_self_none _ _ hlprebak
  obtain ⟨-, -, hpres, -⟩ := rwPhase_shape opts noFail
    (backupPhase opts noFail
      { (replaceWalk opts noFail ⟨[], 0, none, fs⟩ pre).1 with
          filesProcessed :=
            (replaceWalk opts noFail ⟨[], 0, none, fs⟩ pre).1.filesProcessed + 1 }
      f.name)
    f.name
  rw [repFinish_fs]
  rw [replaceWalk_preserves_lookup opts noFail post _ (f.name ++ bakSuffix) hokpost hnepostbak]
  rw [hpres (f.name ++ bakSuffix) (Ne.symm (self_ne_append_bak f.name))]
  exact hlbak2

/-- C1 counterexample: the round trip does not hold on every directory.
With backup enabled on a directory holding `"a"` (content `"x"`) and a
pre-existing `"a.bak"` (content `"z"`), the run backs `"a"` up over
`"a.bak"`, rewrites both `"a"` and `"a.bak"` (whose content is by then the
copied `"x"`), and backs `"a.bak"` up into `"a.bak.bak"`; the subsequent
restore renames `"a.bak"` — now holding the rewritten `"y"` — back onto
`"a"`, so the matched and processed file `"a"` ends with content `"y"`,
not its original content `"x"`. -/
theorem c1_roundtrip_counterexample :
    (⟨['a'], ['x'], 420⟩ : FsFile)
      ∈ ([⟨['a'], ['x'], 420⟩, ⟨['a', '.', 'b', 'a', 'k'], ['z'], 420⟩] : Fs) ∧
    isMatched ⟨['*'], ['x'], ['y'], true⟩ ['a'] = true ∧
    fsLookup (performRestore noFail (performReplacement ⟨['*'], ['x'], ['y'], true⟩ noFail
        ([⟨['a'], ['x'], 420⟩, ⟨['a', '.', 'b', 'a', 'k'], ['z'], 420⟩] : Fs)).fs).fs ['a']
      = some ⟨['a'], ['y'], 420⟩ ∧
    some (⟨['a'], ['y'], 420⟩ : FsFile) ≠ some (⟨['a'], ['x'], 420⟩ : FsFile) := by
  decide

/-- C1 (amended): the round trip holds on hygienic directories.  For a
directory with unique names in which no file is the backup path of a
matched file, a failure-free backup-enabled replacement run followed by a
restore run brings every matched file back to exactly its original
content and its original permission bits.  Without the hygiene proviso
the claim fails: a pre-existing `"a.bak"` is overwritten by the backup of
`"a"`, then itself rewritten and restored onto `"a"`. -/
theorem c1_backup_restore_roundtrip (opts : ReplaceOptions) (fs : Fs) (f : FsFile)
    (hu : fsUnique fs) (hnbc : noBakCollision opts fs)
    (hok : ∀ g ∈ fs, exceptIsOk (matchesPattern g.name opts.pattern) = true)
    (hold : opts.oldText ≠ []) (hsb : opts.shouldBackup = true)
    (hf : f ∈ fs) (hm : isMatched opts f.name = true) :
    fsLookup (performRestore noFail (performReplacement opts noFail fs).fs).fs f.name
      = some ⟨f.name, f.content, f.mode⟩ := by
  have hbak := replace_backup_entry opts fs f hu hnbc hok hold hsb hf hm
  have hu2 : fsUnique (performReplacement opts noFail fs).fs :=
    performReplacement_unique opts fs hu hok
  have hmem2 : (⟨f.name ++ bakSuffix, f.content, f.mode⟩ : FsFile)
      ∈ (performReplacement opts noFail fs).fs := (fsLookup_name hbak).2
  have hmemsort : (⟨f.name ++ bakSuffix, f.content, f.mode⟩ : FsFile)
      ∈ sortFs (performReplacement opts noFail fs).fs := mem_sortFs.mpr hmem2
  obtain ⟨P, Q, hsp⟩ := List.append_of_mem hmemsort
  obtain ⟨hPlt0, hQgt0⟩ := sorted_split_strict hu2 hsp
  have hPlt : ∀ p ∈ P, nameLt p.name (f.name ++ bakSuffix) = true := hPlt0
  have hQgt : ∀ q ∈ Q, nameLt (f.name ++ bakSuffix) q.name = true := hQgt0
  unfold performRestore
  have hwalk : walkOf (performReplacement opts noFail fs).fs
      = P.map (fun g => WalkEvent.file g.name)
        ++ WalkEvent.file (f.name ++ bakSuffix)
          :: Q.map (fun g => WalkEvent.file g.name) := by
    unfold walkOf
    rw [hsp, List.map_append, List.map_cons]
  rw [hwalk]
  rw [restoreWalk_append]
  have hneP : ∀ n, WalkEvent.file n ∈ P.map (fun g => WalkEvent.file g.name) →
      endsWithBak n = true → n ≠ f.name ++ bakSuffix ∧
        trimBak n ≠ f.name ++ bakSuffix := by
    intro n hn hbn
    obtain ⟨p, hp, hpn⟩ := List.mem_map.mp hn
    injection hpn with hpn
    subst hpn
    have hlt := hPlt p hp
    constructor
    · intro hcon
      rw [hcon, nameLt_irrefl] at hlt
      cases hlt
    · intro hcon
      have hn2 : p.name = (f.name ++ bakSuffix) ++ bakSuffix := by
        rw [trimBak_spec hbn, hcon]
      have h2 := nameLt_append (f.name ++ bakSuffix) bakSuffix (by decide)
      have h3 := nameLt_asymm h2
      rw [hn2, h3] at hlt
      cases hlt
  have hlkP : fsLookup (restoreWalk noFail
      ⟨[], 0, none, (performReplacement opts noFail fs).fs⟩
      (P.map (fun g => WalkEvent.file g.name))).fs (f.name ++ bakSuffix)
      = some ⟨f.name ++ bakSuffix, f.content, f.mode⟩ := by
    rw [restoreWalk_preserves_lookup noFail _ _ (f.name ++ bakSuffix) hneP]
    exact hbak
  rw [restoreWalk_cons]
  have hstep := restoreStep_at noFail
    (restoreWalk noFail ⟨[], 0, none, (performReplacement opts noFail fs).fs⟩
      (P.map (fun g => WalkEvent.file g.name)))
    (f.name ++ bakSuffix) ⟨f.name ++ bakSuffix, f.content, f.mode⟩
    (endsWithBak_append f.name) rfl hlkP
  rw [hstep]
  have hneQ : ∀ n, WalkEvent.file n ∈ Q.map (fun g => WalkEvent.file g.name) →
      endsWithBak n = true → n ≠ f.name ∧ trimBak n ≠ f.name := by
    intro n hn hbn
    obtain ⟨q, hq, hqn⟩ := List.mem_map.mp hn
    injection hqn with hqn
    subst hqn
    have hgt := hQgt q hq
    constructor
    · intro hcon
      have h2 := nameLt_append f.name bakSuffix (by decide)
      have h3 := nameLt_asymm h2
      rw [hcon, h3] at hgt
      cases hgt
    · intro hcon
      have hn2 : q.name = f.name ++ bakSuffix := by
        rw [trimBak_spec hbn, hcon]
      rw [hn2, nameLt_irrefl] at hgt
      cases hgt
  rw [restoreWalk_preserves_lookup noFail _ _ f.name hneQ]
  show fsLookup (fsErase (fsErase _ (f.name ++ bakSuffix)) (trimBak (f.name ++ bakSuffix))
      ++ [⟨trimBak (f.name ++ bakSuffix), f.content, f.mode⟩]) f.name = _
  rw [trimBak_append, fsLookup_append, fsLookup_erase_self]
  show fsLookup ([⟨f.name, f.content, f.mode⟩] : Fs) f.name = _
  rw [fsLookup_cons, if_pos rfl]

/-! ### Claim C10: patterns holding a path separator -/

theorem matchChunk_src_absorb4 (s : List Char) :
    matchChunkFuel 4 ['r', 'c', '/'] s true = .ok ([], false) := by
  cases s with
  | nil => rfl
  | cons x xs => rfl

theorem matchChunk_src_absorb3 (s : List Char) :
    matchChunkFuel 3 ['c', '/'] s true = .ok ([], false) := by
  cases s with
  | nil => rfl
  | cons x xs => rfl

theorem matchChunk_src_absorb2 (s : List Char) :
    matchChunkFuel 2 ['/'] s true = .ok ([], false) := by
  cases s with
  | nil => rfl
  | cons x xs => rfl

/-- The literal chunk `"src/"` (the first chunk of both advertised
separator patterns) never matches a prefix of a separator-free name. -/
theorem matchChunk_src_nosep (s : List Char) (h : ('/' : Char) ∉ s) :
    matchChunk ['s', 'r', 'c', '/'] s false = .ok ([], false) := by
  show matchChunkFuel 5 ['s', 'r', 'c', '/'] s false = .ok ([], false)
  cases s with
  | nil => rfl
  | cons a s1 =>
    show matchChunkFuel 4 ['r', 'c', '/'] s1 (!('s' == a)) = .ok ([], false)
    by_cases ha : a = 's'
    · subst ha
      show matchChunkFuel 4 ['r', 'c', '/'] s1 false = .ok ([], false)
      cases s1 with
      | nil => rfl
      | cons b s2 =>
        show matchChunkFuel 3 ['c', '/'] s2 (!('r' == b)) = .ok ([], false)
        by_cases hb : b = 'r'
        · subst hb
          show matchChunkFuel 3 ['c', '/'] s2 false = .ok ([], false)
          cases s2 with
          | nil => rfl
          | cons c2 s3 =>
            show matchChunkFuel 2 ['/'] s3 (!('c' == c2)) = .ok ([], false)
            by_cases hc : c2 = 'c'
            · subst hc
              show matchChunkFuel 2 ['/'] s3 false = .ok ([], false)
              cases s3 with
              | nil => rfl
              | cons d s4 =>
                show matchChunkFuel 1 [] s4 (!('/' == d)) = .ok ([], false)
                have hdmem : d ∈ 's' :: 'r' :: 'c' :: d :: s4 :=
                  List.mem_cons_of_mem _ (List.mem_cons_of_mem _ (List.mem_cons_of_mem _
                    (List.mem_cons_self _ _)))
                have hd : (('/' : Char) == d) = false := by
                  refine beq_eq_false_iff_ne.mpr ?_
                  intro hc2
                  exact h (by rw [hc2]; exact hdmem)
                rw [hd]
                rfl
            · have hcb : (('c' : Char) == c2) = false :=
                beq_eq_false_iff_ne.mpr (fun hc2 => hc hc2.symm)
              rw [hcb]
              exact matchChunk_src_absorb2 s3
        · have hrb : (('r' : Char) == b) = false :=
            beq_eq_false_iff_ne.mpr (fun hc2 => hb hc2.symm)
          rw [hrb]
          exact matchChunk_src_absorb3 s2
    · have hsb2 : (('s' : Char) == a) = false :=
        beq_eq_false_iff_ne.mpr (fun hc2 => ha hc2.symm)
      rw [hsb2]
      exact matchChunk_src_absorb4 s1

theorem goMatchFuel_src_go (fuel : Nat) (name : List Char) (h : ('/' : Char) ∉ name) :
    goMatchFuel (fuel + 1) ['s', 'r', 'c', '/', '*', '.', 'g', 'o'] name = .ok false := by
  show (match matchChunk ['s', 'r', 'c', '/'] name false with
    | .error e => (.error e : Except MErr Bool)
    | .ok (t, okb) =>
      if okb && (t.isEmpty || !(['*', '.', 'g', 'o'] : List Char).isEmpty) then
        goMatchFuel fuel ['*', '.', 'g', 'o'] t
      else
        match patTailCheck ['*', '.', 'g', 'o'] with
        | .error e => .error e
        | .ok _ => .ok false) = .ok false
  rw [matchChunk_src_nosep name h]
  rfl

theorem goMatchFuel_src_any_go (fuel : Nat) (name : List Char) (h : ('/' : Char) ∉ name) :
    goMatchFuel (fuel + 1) ['s', 'r', 'c', '/', '*', '*', '/', '*', '.', 'g', 'o'] name
      = .ok false := by
  show (match matchChunk ['s', 'r', 'c', '/'] name false with
    | .error e => (.error e : Except MErr Bool)
    | .ok (t, okb) =>
      if okb && (t.isEmpty || !(['*', '*', '/', '*', '.', 'g', 'o'] : List Char).isEmpty) then
        goMatchFuel fuel ['*', '*', '/', '*', '.', 'g', 'o'] t
      else
        match patTailCheck ['*', '*', '/', '*', '.', 'g', 'o'] with
        | .error e => .error e
        | .ok _ => .ok false) = .ok false
  rw [matchChunk_src_nosep name h]
  rfl

theorem matchesPattern_src_go (name : List Char) (h : ('/' : Char) ∉ name) :
    matchesPattern name ['s', 'r', 'c', '/', '*', '.', 'g', 'o'] = .ok false := by
  unfold matchesPattern
  rw [if_neg (by decide)]
  exact goMatchFuel_src_go 8 name h

theorem matchesPattern_src_any_go (name : List Char) (h : ('/' : Char) ∉ name) :
    matchesPattern name ['s', 'r', 'c', '/', '*', '*', '/', '*', '.', 'g', 'o']
      = .ok false := by
  unfold matchesPattern
  rw [if_neg (by decide)]
  exact goMatchFuel_src_any_go 10 name h

theorem replaceWalk_none_matched (opts : ReplaceOptions) (fail : FailSpec)
    (evs : List WalkEvent) (acc : RepAcc)
    (hnm : ∀ n, WalkEvent.file n ∈ evs → matchesPattern n opts.pattern = .ok false)
    (hfiles : ∀ e ∈ evs, ∃ n, e = WalkEvent.file n) :
    replaceWalk opts fail acc evs = (acc, none) := by
  induction evs generalizing acc with
  | nil => rfl
  | cons e rest ih =>
    obtain ⟨n, rfl⟩ := hfiles e (List.mem_cons_self _ _)
    rw [replaceWalk_cons_ok (replaceStep_file_notMatched opts fail acc n
      (hnm n (List.mem_cons_self _ _)))]
    exact ih _ (fun n2 hn2 => hnm n2 (List.mem_cons_of_mem _ hn2))
      (fun e2 he2 => hfiles e2 (List.mem_cons_of_mem _ he2))

/-- C10 counterexample: not every pattern holding a path separator is
rejected on every base filename — the pattern `"[^/]"` contains `'/'`
(inside a negated character class) and matches the base filename `"a"`. -/
theorem c10_separator_pattern_counterexample :
    (('/' : Char) ∈ (['[', '^', '/', ']'] : List Char)) ∧
    matchesPattern ['a'] ['[', '^', '/', ']'] = .ok true := by
  decide

/-- C10 (amended): for the two README-advertised separator patterns
`"src/*.go"` and `"src/**/*.go"`, every separator-free base filename
yields `false` without error (their first literal chunk `"src/"` demands
a `'/'` in the name), so a replacement run over a directory of
separator-free names selects zero files: nothing is processed, nothing is
modified, no error is returned and the directory is untouched.  The
claim's quantification over all separator-holding patterns is wrong:
`'/'` can sit inside a bracket class, where it does not force a
mismatch. -/
theorem c10_slash_pattern_selects_nothing (opts : ReplaceOptions) (fail : FailSpec)
    (fs : Fs)
    (hpat : opts.pattern = ['s', 'r', 'c', '/', '*', '.', 'g', 'o'] ∨
      opts.pattern = ['s', 'r', 'c', '/', '*', '*', '/', '*', '.', 'g', 'o'])
    (hnames : ∀ g ∈ fs, ('/' : Char) ∉ g.name)
    (hold : opts.oldText ≠ []) :
    (∀ name, ('/' : Char) ∉ name → matchesPattern name opts.pattern = .ok false) ∧
    (performReplacement opts fail fs).filesProcessed = 0 ∧
    (performReplacement opts fail fs).modifiedFiles = [] ∧
    (performReplacement opts fail fs).err = none ∧
    (performReplacement opts fail fs).fs = fs := by
  have hmf : ∀ name, ('/' : Char) ∉ name →
      matchesPattern name opts.pattern = .ok false := by
    intro name hnn
    rcases hpat with hp | hp <;> rw [hp]
    · exact matchesPattern_src_go name hnn
    · exact matchesPattern_src_any_go name hnn
  have hrun : performReplacement opts fail fs = ⟨[], 0, none, fs⟩ := by
    unfold performReplacement
    rw [if_neg (by simp [List.isEmpty_iff, hold])]
    rw [replaceWalk_none_matched opts fail (walkOf fs) _ ?hnm ?hfl]
    · rfl
    case hnm =>
      intro n hn
      obtain ⟨g, hg, hgn⟩ := file_mem_walkOf hn
      subst hgn
      exact hmf g.name (hnames g hg)
    case hfl => exact walkOf_files fs
  exact ⟨hmf, by rw [hrun], by rw [hrun], by rw [hrun], by rw [hrun]⟩

/-- Witness for the amended C10: pattern `"src/*.go"` on a directory
holding `"main.go"` (content containing the search text). -/
theorem c10_slash_pattern_selects_nothing_witness :
    (∀ name, ('/' : Char) ∉ name →
      matchesPattern name ['s', 'r', 'c', '/', '*', '.', 'g', 'o'] = .ok false) ∧
    (performReplacement ⟨['s', 'r', 'c', '/', '*', '.', 'g', 'o'], ['x'], ['y'], false⟩
        noFail ([⟨['m', 'a', 'i', 'n', '.', 'g', 'o'], ['x'], 420⟩] : Fs)).filesProcessed
      = 0 ∧
    (performReplacement ⟨['s', 'r', 'c', '/', '*', '.', 'g', 'o'], ['x'], ['y'], false⟩
        noFail ([⟨['m', 'a', 'i', 'n', '.', 'g', 'o'], ['x'], 420⟩] : Fs)).modifiedFiles
      = [] ∧
    (performReplacement ⟨['s', 'r', 'c', '/', '*', '.', 'g', 'o'], ['x'], ['y'], false⟩
        noFail ([⟨['m', 'a', 'i', 'n', '.', 'g', 'o'], ['x'], 420⟩] : Fs)).err = none ∧
    (performReplacement ⟨['s', 'r', 'c', '/', '*', '.', 'g', 'o'], ['x'], ['y'], false⟩
        noFail ([⟨['m', 'a', 'i', 'n', '.', 'g', 'o'], ['x'], 420⟩] : Fs)).fs
      = ([⟨['m', 'a', 'i', 'n', '.', 'g', 'o'], ['x'], 420⟩] : Fs) :=
  c10_slash_pattern_selects_nothing
    ⟨['s', 'r', 'c', '/', '*', '.', 'g', 'o'], ['x'], ['y'], false⟩ noFail
    ([⟨['m', 'a', 'i', 'n', '.', 'g', 'o'], ['x'], 420⟩] : Fs)
    (Or.inl rfl) (by decide) (by decide)

/-! ### Claim C8: first-one-wins error accumulation -/

theorem foldl_noteErr_some (e0 : EngineErr) (log : List EngineErr) :
    List.foldl noteErr (some e0) log = some e0 := by
  induction log with
  | nil => rfl
  | cons x xs ih => exact ih

theorem foldl_noteErr_none (log : List EngineErr) :
    List.foldl noteErr none log = log.head? := by
  cases log with
  | nil => rfl
  | cons x xs => exact foldl_noteErr_some x xs

theorem backupPhase_errlog (opts : ReplaceOptions) (fail : FailSpec) (acc1 : RepAcc)
    (n : List Char) :
    (backupPhase opts fail acc1 n).firstErr
      = List.foldl noteErr acc1.firstErr (backupErrs opts fail acc1.fs n) ∧
    (backupPhase opts fail acc1 n).fs = backupFsAfter opts fail acc1.fs n := by
  unfold backupPhase backupErrs backupFsAfter
  by_cases hsb : opts.shouldBackup = true
  · simp only [if_pos hsb]
    cases hcb : createBackup fail acc1.fs n with
    | none => exact ⟨rfl, by trivial⟩
    | some fs2 => exact ⟨rfl, by trivial⟩
  · simp only [if_neg hsb]
    exact ⟨rfl, by trivial⟩

theorem rwPhase_errlog (opts : ReplaceOptions) (fail : FailSpec) (acc2 : RepAcc)
    (n : List Char) :
    (rwPhase opts fail acc2 n).firstErr
      = List.foldl noteErr acc2.firstErr (rwErrs opts fail acc2.fs n) ∧
    (rwPhase opts fail acc2 n).fs = rwFsAfter opts fail acc2.fs n := by
  unfold rwPhase rwErrs rwFsAfter
  cases hrd : (if fail.readFails n = true then none else fsLookup acc2.fs n) with
  | none => exact ⟨rfl, by trivial⟩
  | some f =>
    by_cases hct : stringsContains f.content opts.oldText = true
    · simp only [if_pos hct]
      by_cases hwf : fail.writeFails n = true
      · simp only [if_pos hwf]
        exact ⟨rfl, by trivial⟩
      · simp only [if_neg hwf]
        exact ⟨rfl, by trivial⟩
    · simp only [if_neg hct]
      exact ⟨rfl, by trivial⟩

theorem replaceStep_errlog (opts : ReplaceOptions) (fail : FailSpec) (acc : RepAcc)
    (e : WalkEvent)
    (hok : ∀ n, e = WalkEvent.file n → exceptIsOk (matchesPattern n opts.pattern) = true) :
    ∃ acc2, replaceStep opts fail acc e = .ok acc2 ∧
      acc2.firstErr = List.foldl noteErr acc.firstErr (replaceStepErrs opts fail acc.fs e) ∧
      acc2.fs = replaceStepFs opts fail acc.fs e := by
  cases e with
  | access p =>
    exact ⟨_, replaceStep_access opts fail acc p, rfl, rfl⟩
  | file n =>
    have hn := hok n rfl
    cases hmp : matchesPattern n opts.pattern with
    | error e2 =>
      rw [hmp] at hn
      simp [exceptIsOk] at hn
    | ok b =>
      cases b with
      | false =>
        refine ⟨acc, replaceStep_file_notMatched opts fail acc n hmp, ?_, ?_⟩
        · simp only [replaceStepErrs, hmp]
          rfl
        · simp only [replaceStepFs, hmp]
      | true =>
        obtain ⟨hb1, hb2⟩ := backupPhase_errlog opts fail
          { acc with filesProcessed := acc.filesProcessed + 1 } n
        obtain ⟨hr1, hr2⟩ := rwPhase_errlog opts fail
          (backupPhase opts fail { acc with filesProcessed := acc.filesProcessed + 1 } n) n
        refine ⟨rwPhase opts fail (backupPhase opts fail
            { acc with filesProcessed := acc.filesProcessed + 1 } n) n,
          by simp only [replaceStep, hmp], ?_, ?_⟩
        · simp only [replaceStepErrs, hmp]
          rw [List.foldl_append, hr1, hb1, hb2]
        · simp only [replaceStepFs, hmp]
          rw [hr2, hb2]

theorem replaceWalk_errlog (opts : ReplaceOptions) (fail : FailSpec)
    (evs : List WalkEvent) (acc : RepAcc)
    (hok : ∀ n, WalkEvent.file n ∈ evs → exceptIsOk (matchesPattern n opts.pattern) = true) :
    (replaceWalk opts fail acc evs).1.firstErr
      = List.foldl noteErr acc.firstErr (replaceErrLog opts fail acc.fs evs) := by
  induction evs generalizing acc with
  | nil => rfl
  | cons e rest ih =>
    have hrest : ∀ n, WalkEvent.file n ∈ rest →
        exceptIsOk (matchesPattern n opts.pattern) = true :=
      fun n hn => hok n (List.mem_cons_of_mem _ hn)
    obtain ⟨acc2, hstep, he, hfs⟩ := replaceStep_errlog opts fail acc e
      (fun n hne => hok n (hne ▸ List.mem_cons_self _ _))
    rw [replaceWalk_cons_ok hstep]
    rw [ih acc2 hrest, he, hfs]
    show _ = List.foldl noteErr acc.firstErr (replaceStepErrs opts fail acc.fs e
      ++ replaceErrLog opts fail (replaceStepFs opts fail acc.fs e) rest)
    rw [List.foldl_append]

theorem restoreStep_errlog (fail : FailSpec) (acc : RrAcc) (e : WalkEvent) :
    (restoreStep fail acc e).firstErr
      = List.foldl noteErr acc.firstErr (restoreStepErrs fail acc.fs e) ∧
    (restoreStep fail acc e).fs = restoreStepFs fail acc.fs e := by
  cases e with
  | access p => exact ⟨rfl, rfl⟩
  | file n =>
    simp only [restoreStep, restoreStepErrs, restoreStepFs]
    by_cases hb : endsWithBak n = true
    · rw [hb]
      simp only [Bool.not_true, Bool.false_eq_true, if_false]
      cases hrn : (if fail.renameFails n = true then none
          else fsRename acc.fs n (trimBak n)) with
      | none => exact ⟨rfl, rfl⟩
      | some fs2 => exact ⟨rfl, rfl⟩
    · have hb2 : endsWithBak n = false := Bool.not_eq_true _ |>.mp hb
      rw [hb2]
      simp only [Bool.not_false, if_true]
      exact ⟨rfl, by trivial⟩

theorem restoreWalk_errlog (fail : FailSpec) (evs : List WalkEvent) (acc : RrAcc) :
    (restoreWalk fail acc evs).firstErr
      = List.foldl noteErr acc.firstErr (restoreErrLog fail acc.fs evs) := by
  induction evs generalizing acc with
  | nil => rfl
  | cons e rest ih =>
    obtain ⟨he, hfs⟩ := restoreStep_errlog fail acc e
    rw [restoreWalk_cons, ih, he, hfs]
    show _ = List.foldl noteErr acc.firstErr (restoreStepErrs fail acc.fs e
      ++ restoreErrLog fail (restoreStepFs fail acc.fs e) rest)
    rw [List.foldl_append]

theorem cleanStep_errlog (fail : FailSpec) (acc : RrAcc) (e : WalkEvent) :
    (cleanStep fail acc e).firstErr
      = List.foldl noteErr acc.firstErr (cleanStepErrs fail acc.fs e) ∧
    (cleanStep fail acc e).fs = cleanStepFs fail acc.fs e := by
  cases e with
  | access p => exact ⟨rfl, rfl⟩
  | file n =>
    simp only [cleanStep, cleanStepErrs, cleanStepFs]
    by_cases hb : endsWithBak n = true
    · rw [hb]
      simp only [Bool.not_true, Bool.false_eq_true, if_false]
      cases hrm : (if fail.removeFails n = true then none else fsRemove acc.fs n) with
      | none => exact ⟨rfl, rfl⟩
      | some fs2 => exact ⟨rfl, rfl⟩
    · have hb2 : endsWithBak n = false := Bool.not_eq_true _ |>.mp hb
      rw [hb2]
      simp only [Bool.not_false, if_true]
      exact ⟨rfl, by trivial⟩

theorem cleanWalk_cons (fail : FailSpec) (acc : RrAcc) (e : WalkEvent)
    (rest : List WalkEvent) :
    cleanWalk fail acc (e :: rest) = cleanWalk fail (cleanStep fail acc e) rest := rfl

theorem cleanWalk_errlog (fail : FailSpec) (evs : List WalkEvent) (acc : RrAcc) :
    (cleanWalk fail acc evs).firstErr
      = List.foldl noteErr acc.firstErr (cleanErrLog fail acc.fs evs) := by
  induction evs generalizing acc with
  | nil => rfl
  | cons e rest ih =>
    obtain ⟨he, hfs⟩ := cleanStep_errlog fail acc e
    rw [cleanWalk_cons, ih, he, hfs]
    show _ = List.foldl noteErr acc.firstErr (cleanStepErrs fail acc.fs e
      ++ cleanErrLog fail (cleanStepFs fail acc.fs e) rest)
    rw [List.foldl_append]

/-- C8: first-one-wins error accumulation in all three engines.  For
every injected pattern of non-fatal I/O failures: a replacement run with
a valid request and a pattern that errors on no visited name still
processes every matched file and returns exactly the head of the list of
non-fatal errors in traversal order; a restore run and a clean run return
as their recorded error exactly the head of their traversal-ordered
non-fatal error lists.  Later errors never replace the first. -/
theorem c8_first_error_wins (opts : ReplaceOptions) (fail : FailSpec) (fs : Fs)
    (hold : opts.oldText ≠ [])
    (hok : ∀ g ∈ fs, exceptIsOk (matchesPattern g.name opts.pattern) = true) :
    (performReplacement opts fail fs).err
      = (replaceErrLog opts fail fs (walkOf fs)).head? ∧
    (performReplacement opts fail fs).filesProcessed
      = ((walkOf fs).filter (isFileMatch opts)).length ∧
    (performRestore fail fs).firstErr
      = (restoreErrLog fail fs (walkOf fs)).head? ∧
    (performClean fail fs).firstErr
      = (cleanErrLog fail fs (walkOf fs)).head? := by
  have hokW : ∀ n, WalkEvent.file n ∈ walkOf fs →
      exceptIsOk (matchesPattern n opts.pattern) = true := by
    intro n hn
    obtain ⟨g, hg, hgn⟩ := file_mem_walkOf hn
    subst hgn
    exact hok g hg
  obtain ⟨hfatal, hcount⟩ := replaceWalk_noFatal_count opts fail (walkOf fs)
    ⟨[], 0, none, fs⟩ hokW
  refine ⟨?_, ?_, ?_, ?_⟩
  · unfold performReplacement
    rw [if_neg (by simp [List.isEmpty_iff, hold])]
    rw [repFinish_err_none hfatal]
    rw [replaceWalk_errlog opts fail (walkOf fs) _ hokW]
    show List.foldl noteErr none (replaceErrLog opts fail fs (walkOf fs)) = _
    exact foldl_noteErr_none _
  · unfold performReplacement
    rw [if_neg (by simp [List.isEmpty_iff, hold])]
    rw [repFinish_filesProcessed]
    rw [hcount]
    simp
  · unfold performRestore
    rw [restoreWalk_errlog]
    show List.foldl noteErr none (restoreErrLog fail fs (walkOf fs)) = _
    exact foldl_noteErr_none _
  · unfold performClean
    rw [cleanWalk_errlog]
    show List.foldl noteErr none (cleanErrLog fail fs (walkOf fs)) = _
    exact foldl_noteErr_none _

/-- Witness for C8: two matched files `"a"` and `"b"` whose backups both
fail; the returned error is the head of the two-element error log, the
later backup error does not replace it, and both files are still
processed. -/
theorem c8_first_error_wins_witness :
    (performReplacement ⟨['*'], ['x'], ['y'], true⟩
        ⟨fun _ => true, fun _ => false, fun _ => false, fun _ => false, fun _ => false⟩
        ([⟨['a'], ['x'], 420⟩, ⟨['b'], ['x'], 420⟩] : Fs)).err
      = (replaceErrLog ⟨['*'], ['x'], ['y'], true⟩
          ⟨fun _ => true, fun _ => false, fun _ => false, fun _ => false, fun _ => false⟩
          ([⟨['a'], ['x'], 420⟩, ⟨['b'], ['x'], 420⟩] : Fs)
          (walkOf ([⟨['a'], ['x'], 420⟩, ⟨['b'], ['x'], 420⟩] : Fs))).head? ∧
    (performReplacement ⟨['*'], ['x'], ['y'], true⟩
        ⟨fun _ => true, fun _ => false, fun _ => false, fun _ => false, fun _ => false⟩
        ([⟨['a'], ['x'], 420⟩, ⟨['b'], ['x'], 420⟩] : Fs)).filesProcessed
      = ((walkOf ([⟨['a'], ['x'], 420⟩, ⟨['b'], ['x'], 420⟩] : Fs)).filter
          (isFileMatch ⟨['*'], ['x'], ['y'], true⟩)).length ∧
    (performRestore ⟨fun _ => true, fun _ => false, fun _ => false, fun _ => false,
        fun _ => false⟩ ([⟨['a'], ['x'], 420⟩, ⟨['b'], ['x'], 420⟩] : Fs)).firstErr
      = (restoreErrLog ⟨fun _ => true, fun _ => false, fun _ => false, fun _ => false,
          fun _ => false⟩ ([⟨['a'], ['x'], 420⟩, ⟨['b'], ['x'], 420⟩] : Fs)
          (walkOf ([⟨['a'], ['x'], 420⟩, ⟨['b'], ['x'], 420⟩] : Fs))).head? ∧
    (performClean ⟨fun _ => true, fun _ => false, fun _ => false, fun _ => false,
        fun _ => false⟩ ([⟨['a'], ['x'], 420⟩, ⟨['b'], ['x'], 420⟩] : Fs)).firstErr
      = (cleanErrLog ⟨fun _ => true, fun _ => false, fun _ => false, fun _ => false,
          fun _ => false⟩ ([⟨['a'], ['x'], 420⟩, ⟨['b'], ['x'], 420⟩] : Fs)
          (walkOf ([⟨['a'], ['x'], 420⟩, ⟨['b'], ['x'], 420⟩] : Fs))).head? :=
  c8_first_error_wins ⟨['*'], ['x'], ['y'], true⟩
    ⟨fun _ => true, fun _ => false, fun _ => false, fun _ => false, fun _ => false⟩
    ([⟨['a'], ['x'], 420⟩, ⟨['b'], ['x'], 420⟩] : Fs)
    (by decide) (by decide)

/-- Witness for the amended C1: a single matched file `"a"` with content
`"x"` and mode 420; after replace (search `"x"`, replacement `"y"`,
backup on) and restore, `"a"` again holds `"x"` with mode 420. -/
theorem c1_backup_restore_roundtrip_witness :
    fsLookup (performRestore noFail (performReplacement ⟨['*'], ['x'], ['y'], true⟩ noFail
        ([⟨['a'], ['x'], 420⟩] : Fs)).fs).fs ['a']
      = some ⟨['a'], ['x'], 420⟩ :=
  c1_backup_restore_roundtrip ⟨['*'], ['x'], ['y'], true⟩
    ([⟨['a'], ['x'], 420⟩] : Fs) ⟨['a'], ['x'], 420⟩
    (by decide) (by decide) (by decide) (by decide) rfl (by decide) (by decide)

end PhotonSR
